import Mathlib

/-
Shallow embedding of the `national-insurance-info-extractor` pipeline.

The embedding follows the Python sources:
  * `src/main.py`            — artifact cleaner, layout-to-text projector,
                                schema-compliance merger, empty-result template;
  * `src/modules/ocr_processor.py`  — OCR result normalizer (polygon handling,
                                key-value pairs, tables, page extraction);
  * `src/modules/field_validator.py` — completeness / confidence scoring and
                                format warnings.

Modelling conventions:
  * Python values flowing through the pipeline are embedded as the inductive
    type `PyVal`; exceptions are modelled with `Except PyErr`.
  * Python floats are modelled as rationals (`Rat`); the claims proved here
    only exercise arithmetic that is exact in IEEE doubles (sums of halves,
    0, 100, simple averages), so the rational model is faithful at every
    evaluated point.
  * The regular expressions of `_clean_ocr_artifacts` are embedded over
    `List Char` with the ASCII fragment of Python's `\d`, `\s`, `\w`
    character classes (the inputs handled by this repository are matched by
    the ASCII fragment; `\b` only depends on the word-character class of the
    two surrounding characters, which is modelled by a `Bool` "previous
    character is a word character" argument threaded through the scan).
-/

namespace NIIE

/-! ## Character classes (ASCII fragment of Python `re` classes) -/

/-- Python `\s` (ASCII fragment): space, tab, newline, carriage return,
vertical tab, form feed. -/
def isWS (c : Char) : Bool :=
  c = ' ' || c = '\t' || c = '\n' || c = '\r' || c = '\x0b' || c = '\x0c'

/-- Python `\d` (ASCII fragment). -/
def isDigitCh (c : Char) : Bool :=
  '0' ≤ c && c ≤ '9'

/-- Python `\w` (ASCII fragment): letters, digits, underscore. -/
def isWordCh (c : Char) : Bool :=
  isDigitCh c || ('a' ≤ c && c ≤ 'z') || ('A' ≤ c && c ≤ 'Z') || c = '_'

/-! ## The two phone-number patterns of `_clean_ocr_artifacts` (main.py 263-287)

Pattern 1: `\b85(\d{8})\b`   replaced by `05\1`.
Pattern 2: `\b8\s*5(\d{8})\b` replaced by `05\1`.
A matcher takes the word-class of the character preceding the current
position (`false` at the start of the string) and returns the captured
eight digits together with the rest of the string after the match. -/

/-- Consume exactly `n` digit characters, returning them and the rest. -/
def grabDigits : Nat → List Char → Option (List Char × List Char)
  | 0, s => some ([], s)
  | _ + 1, [] => none
  | n + 1, c :: cs =>
      if isDigitCh c then
        match grabDigits n cs with
        | some (ds, rest) => some (c :: ds, rest)
        | none => none
      else none

/-- `\b` directly after a digit: the next character must not be a word
character (or the string ends). -/
def boundaryAfter : List Char → Bool
  | [] => true
  | c :: _ => !isWordCh c

/-- Try to match `\b85(\d{8})\b` at the current position. -/
def matchP1 (prevw : Bool) (s : List Char) : Option (List Char × List Char) :=
  if prevw then none else
  match s with
  | c1 :: c2 :: t =>
      if c1 = '8' then
        if c2 = '5' then
          match grabDigits 8 t with
          | some (ds, rest) => if boundaryAfter rest then some (ds, rest) else none
          | none => none
        else none
      else none
  | _ => none

/-- Try to match `\b8\s*5(\d{8})\b` at the current position.  The `\s*` is
greedy; since the following pattern character `5` is not whitespace, the
match is deterministic: take the maximal whitespace run, then require `5`. -/
def matchP2 (prevw : Bool) (s : List Char) : Option (List Char × List Char) :=
  if prevw then none else
  match s with
  | c1 :: t =>
      if c1 = '8' then
        match t.dropWhile isWS with
        | c2 :: u =>
            if c2 = '5' then
              match grabDigits 8 u with
              | some (ds, rest) => if boundaryAfter rest then some (ds, rest) else none
              | none => none
            else none
        | [] => none
      else none
  | [] => none

/-! ## `re.sub` for the two patterns

`re.sub` scans left to right; at each position it tries the pattern, and on
a match emits the replacement (`05` + the eight captured digits) and
continues after the match; the character preceding the continuation point in
the original string is the eighth captured digit (a word character), so the
scan continues with previous-word-class `true`.  The recursion is expressed
with a fuel argument (the string length is always sufficient fuel because
every step consumes at least one character); `subP1`/`subP2` instantiate the
fuel so that all definitions compute by `decide`. -/

def subP1F : Nat → Bool → List Char → List Char
  | 0, _, s => s
  | f + 1, prevw, s =>
      match matchP1 prevw s with
      | some (ds, rest) => '0' :: '5' :: (ds ++ subP1F f true rest)
      | none =>
          match s with
          | [] => []
          | c :: cs => c :: subP1F f (isWordCh c) cs

/-- `re.sub(r'\b85(\d{8})\b', r'05\1', s)` scanning with previous word-class
`prevw`. -/
def subP1 (prevw : Bool) (s : List Char) : List Char :=
  subP1F s.length prevw s

def subP2F : Nat → Bool → List Char → List Char
  | 0, _, s => s
  | f + 1, prevw, s =>
      match matchP2 prevw s with
      | some (ds, rest) => '0' :: '5' :: (ds ++ subP2F f true rest)
      | none =>
          match s with
          | [] => []
          | c :: cs => c :: subP2F f (isWordCh c) cs

/-- `re.sub(r'\b8\s*5(\d{8})\b', r'05\1', s)` scanning with previous
word-class `prevw`. -/
def subP2 (prevw : Bool) (s : List Char) : List Char :=
  subP2F s.length prevw s

/-- `re.sub(r'\s+', ' ', s)`: replace every maximal whitespace run by a
single space. -/
def collapseF : Nat → List Char → List Char
  | 0, s => s
  | _ + 1, [] => []
  | f + 1, c :: cs =>
      if isWS c then ' ' :: collapseF f (cs.dropWhile isWS)
      else c :: collapseF f cs

def collapse (s : List Char) : List Char :=
  collapseF s.length s

/-- Remove the maximal whitespace suffix (the right half of `str.strip`). -/
def stripRight : List Char → List Char
  | [] => []
  | c :: cs =>
      match stripRight cs with
      | [] => if isWS c then [] else [c]
      | r => c :: r

/-- Python `str.strip()` (ASCII whitespace fragment). -/
def pstrip (s : List Char) : List Char :=
  stripRight (s.dropWhile isWS)

/-- `FormProcessor._clean_ocr_artifacts` (main.py 263-287): empty text is
returned unchanged; otherwise apply pattern 1, then pattern 2, then collapse
whitespace runs, then strip. -/
def cleanOcrArtifacts (s : List Char) : List Char :=
  if s.isEmpty then s
  else pstrip (collapse (subP2 false (subP1 false s)))

/-- `_clean_ocr_artifacts` on `String`. -/
def cleanS (s : String) : String :=
  String.mk (cleanOcrArtifacts s.toList)

/-- Scanner for pattern 1: does `\b85(\d{8})\b` match anywhere in `s` when
the character before `s` has word-class `prevw`? -/
def hasP1 : Bool → List Char → Bool
  | _, [] => false
  | prevw, c :: cs => (matchP1 prevw (c :: cs)).isSome || hasP1 (isWordCh c) cs

/-- Scanner for pattern 2. -/
def hasP2 : Bool → List Char → Bool
  | _, [] => false
  | prevw, c :: cs => (matchP2 prevw (c :: cs)).isSome || hasP2 (isWordCh c) cs

/-- Whitespace-normal form: every whitespace character is a single space
never followed by further whitespace (the shape `collapse` produces). -/
def wsOk : List Char → Bool
  | [] => true
  | [c] => !isWS c || c = ' '
  | c1 :: c2 :: t => (!isWS c1 || (c1 = ' ' && !isWS c2)) && wsOk (c2 :: t)

/-! ## Python values and exceptions -/

/-- Embedded Python values.  `vdict` models `dict` (ordered key/value pairs,
keys unique in all values built by this pipeline); `vobj` models duck-typed
objects accessed through `getattr`/`hasattr` (the Azure analysis-result
objects). -/
inductive PyVal where
  | none
  | vbool (b : Bool)
  | vint (n : Int)
  | vfloat (q : Rat)
  | vstr (s : String)
  | vlist (xs : List PyVal)
  | vdict (entries : List (String × PyVal))
  | vobj (attrs : List (String × PyVal))
deriving Repr, Inhabited

mutual
/-- Structural boolean equality on `PyVal` (models Python `==` at the values
compared by this pipeline: strings, `None`, numbers of the same kind). -/
def PyVal.beq : PyVal → PyVal → Bool
  | .none, .none => true
  | .vbool a, .vbool b => a == b
  | .vint a, .vint b => a == b
  | .vfloat a, .vfloat b => a == b
  | .vstr a, .vstr b => a == b
  | .vlist a, .vlist b => PyVal.beqList a b
  | .vdict a, .vdict b => PyVal.beqEntries a b
  | .vobj a, .vobj b => PyVal.beqEntries a b
  | _, _ => false

def PyVal.beqList : List PyVal → List PyVal → Bool
  | [], [] => true
  | a :: as, b :: bs => PyVal.beq a b && PyVal.beqList as bs
  | _, _ => false

def PyVal.beqEntries : List (String × PyVal) → List (String × PyVal) → Bool
  | [], [] => true
  | (k1, v1) :: as, (k2, v2) :: bs => k1 == k2 && PyVal.beq v1 v2 && PyVal.beqEntries as bs
  | _, _ => false
end

instance : BEq PyVal := ⟨PyVal.beq⟩

/-- Exceptions that the embedded code can raise. -/
inductive PyErr where
  | typeError
  | attributeError
  | valueError
deriving Repr, DecidableEq, Inhabited

/-- Python truthiness (`bool(v)`). -/
def pyTruthy : PyVal → Bool
  | .none => false
  | .vbool b => b
  | .vint n => n != 0
  | .vfloat q => q != 0
  | .vstr s => s != ""
  | .vlist xs => !xs.isEmpty
  | .vdict es => !es.isEmpty
  | .vobj _ => true

/-- First binding of a key in a dict's entry list. -/
def dictGet? (es : List (String × PyVal)) (k : String) : Option PyVal :=
  match es.find? (fun e => e.1 == k) with
  | some e => some e.2
  | Option.none => Option.none

/-- Boolean contiguous-substring test on character lists. -/
def infixOfB (needle : List Char) : List Char → Bool
  | [] => needle.isEmpty
  | c :: t => needle.isPrefixOf (c :: t) || infixOfB needle t

/-- Python `key in value`: dict-key membership for dicts, substring test for
strings, element membership for lists; `TypeError` for non-containers. -/
def pyContains (v : PyVal) (k : String) : Except PyErr Bool :=
  match v with
  | .vdict es => .ok (es.any (fun e => e.1 == k))
  | .vstr s => .ok (infixOfB k.toList s.toList)
  | .vlist xs => .ok (xs.any (fun x => x == .vstr k))
  | _ => .error .typeError

/-- Python `v.get(key)` (default `None`): only dicts have `.get`. -/
def pyGet (v : PyVal) (k : String) : Except PyErr PyVal :=
  match v with
  | .vdict es => .ok ((dictGet? es k).getD .none)
  | _ => .error .attributeError

/-- Python `v.get(key, default)`: only dicts have `.get`. -/
def pyGetD (v : PyVal) (k : String) (d : PyVal) : Except PyErr PyVal :=
  match v with
  | .vdict es => .ok ((dictGet? es k).getD d)
  | _ => .error .attributeError

/-- A single quote character, kept out of string literals. -/
def qm : String := (Char.ofNat 39).toString

mutual
/-- Python `repr` (escaping inside string literals is not modelled; the
claims never evaluate `str` on strings containing quotes). -/
def pyRepr : PyVal → String
  | .none => "None"
  | .vbool b => if b then "True" else "False"
  | .vint n => toString n
  | .vfloat q => toString q
  | .vstr s => qm ++ s ++ qm
  | .vlist xs => "[" ++ pyReprSep xs ++ "]"
  | .vdict es => "\x7b" ++ pyReprEntries es ++ "\x7d"
  | .vobj _ => "<object>"

def pyReprSep : List PyVal → String
  | [] => ""
  | [x] => pyRepr x
  | x :: y :: t => pyRepr x ++ ", " ++ pyReprSep (y :: t)

def pyReprEntries : List (String × PyVal) → String
  | [] => ""
  | [(k, v)] => qm ++ k ++ qm ++ ": " ++ pyRepr v
  | (k, v) :: e :: t => qm ++ k ++ qm ++ ": " ++ pyRepr v ++ ", " ++ pyReprEntries (e :: t)
end

/-- Python `str(v)` (identity on strings, `repr`-style elsewhere; `str` of a
float is modelled through the rational's printed form — the claims never
evaluate `str` on floats). -/
def pyStr : PyVal → String
  | .vstr s => s
  | v => pyRepr v

/-! ## `_get_empty_result` (main.py 322-352): the canonical schema template -/

def dateTemplate : PyVal :=
  .vdict [("day", .vstr ""), ("month", .vstr ""), ("year", .vstr "")]

/-- The entry list of `_get_empty_result`. -/
def templateEntries : List (String × PyVal) :=
    [ ("lastName", .vstr ""),
      ("firstName", .vstr ""),
      ("idNumber", .vstr ""),
      ("gender", .vstr ""),
      ("dateOfBirth", dateTemplate),
      ("address", .vdict
        [ ("street", .vstr ""), ("houseNumber", .vstr ""), ("entrance", .vstr ""),
          ("apartment", .vstr ""),
          ("city", .vstr ""), ("postalCode", .vstr ""), ("poBox", .vstr "") ]),
      ("landlinePhone", .vstr ""),
      ("mobilePhone", .vstr ""),
      ("jobType", .vstr ""),
      ("dateOfInjury", dateTemplate),
      ("timeOfInjury", .vstr ""),
      ("accidentLocation", .vstr ""),
      ("accidentAddress", .vstr ""),
      ("accidentDescription", .vstr ""),
      ("injuredBodyPart", .vstr ""),
      ("signature", .vstr ""),
      ("formFillingDate", dateTemplate),
      ("formReceiptDateAtClinic", dateTemplate),
      ("medicalInstitutionFields", .vdict
        [ ("healthFundMember", .vstr ""),
          ("natureOfAccident", .vstr ""),
          ("medicalDiagnoses", .vstr "") ]) ]

/-- `FormProcessor._get_empty_result`. -/
def emptyResultV : PyVal :=
  .vdict templateEntries

/-- `isinstance(v, dict)`. -/
def isDict : PyVal → Bool
  | .vdict _ => true
  | _ => false

/-! ## `_ensure_schema_compliance` (main.py 297-320): the merger -/

mutual
/-- Inner `merge_with_template(extracted, template)`: when the template is a
dict, walk its keys; a key present in `extracted` recurses (dict template
value, fetched with default `\x7b\x7d`) or coerces the extracted leaf to a
string (`""` for `None` and the literal `"null"`); a key absent from
`extracted` copies the template's value.  When the template is not a dict,
return `extracted` unless it is `None`, else the template.  `key in
extracted` and `extracted.get(key)` raise exactly as in Python. -/
def mergeWithTemplate (e : PyVal) : PyVal → Except PyErr PyVal
  | .vdict ts => do
      let rs ← mergeEntries e ts
      return .vdict rs
  | t =>
      match e with
      | .none => .ok t
      | _ => .ok e

def mergeEntries (e : PyVal) : List (String × PyVal) → Except PyErr (List (String × PyVal))
  | [] => .ok []
  | (k, tv) :: rest => do
      let c ← pyContains e k
      if c then
        if isDict tv then do
          let sub ← pyGetD e k (.vdict [])
          let m ← mergeWithTemplate sub tv
          let rs ← mergeEntries e rest
          return (k, m) :: rs
        else do
          let ev ← pyGet e k
          let leaf := match ev with
                      | .none => PyVal.vstr ""
                      | .vstr "null" => PyVal.vstr ""
                      | v => PyVal.vstr (pyStr v)
          let rs ← mergeEntries e rest
          return (k, leaf) :: rs
      else do
        let rs ← mergeEntries e rest
        return (k, tv) :: rs
end

/-- `_ensure_schema_compliance(data)`. -/
def ensureSchemaCompliance (data : PyVal) : Except PyErr PyVal :=
  mergeWithTemplate data emptyResultV

mutual
/-- Shape compliance against a template: for a dict template the value must
be a dict with exactly the template's keys in order, recursively so at
dict-valued template entries. -/
def conformsTo : PyVal → PyVal → Bool
  | r, .vdict ts =>
      match r with
      | .vdict rs => (rs.map Prod.fst == ts.map Prod.fst) && conformsEntries rs ts
      | _ => false
  | _, _ => true

def conformsEntries : List (String × PyVal) → List (String × PyVal) → Bool
  | [], [] => true
  | (_, rv) :: rs, (_, tv) :: ts =>
      (if isDict tv then conformsTo rv tv else true) && conformsEntries rs ts
  | _, _ => false
end

mutual
/-- Sufficient domain for the merger to be exception-free: the extracted
value is a dict, and recursively so wherever the template has a dict value
and the extracted dict has that key. -/
def goodShape : PyVal → PyVal → Bool
  | e, .vdict ts =>
      match e with
      | .vdict es => goodShapeEntries es ts
      | _ => false
  | _, _ => true

def goodShapeEntries (es : List (String × PyVal)) : List (String × PyVal) → Bool
  | [] => true
  | (k, tv) :: rest =>
      (if isDict tv then
        match dictGet? es k with
        | some sub => goodShape sub tv
        | Option.none => true
       else true) && goodShapeEntries es rest
end

mutual
/-- Every value reachable in a dict tree that is not itself a dict is a
string. -/
def allStringLeaves : PyVal → Bool
  | .vdict es => allStringLeavesEntries es
  | .vstr _ => true
  | _ => false

/-- Entry-list form of `allStringLeaves`. -/
def allStringLeavesEntries : List (String × PyVal) → Bool
  | [] => true
  | (_, v) :: rest => allStringLeaves v && allStringLeavesEntries rest
end

/-! ## Duck typing helpers (`hasattr` / `getattr`) -/

/-- `hasattr(v, a)` for the attributes used by the normalizer (modelled
objects carry their attributes explicitly; no other embedded value exposes
any of the attribute names the sources query). -/
def hasattrB (v : PyVal) (a : String) : Bool :=
  match v with
  | .vobj attrs => attrs.any (fun e => e.1 == a)
  | _ => false

/-- `getattr(v, a, d)`. -/
def getattrD (v : PyVal) (a : String) (d : PyVal) : PyVal :=
  match v with
  | .vobj attrs =>
      match attrs.find? (fun e => e.1 == a) with
      | some e => e.2
      | Option.none => d
  | _ => d

/-- Python iteration `for x in v`: lists iterate elements, strings iterate
characters, dicts iterate keys; other values raise `TypeError`. -/
def pyIter : PyVal → Except PyErr (List PyVal)
  | .vlist xs => .ok xs
  | .vstr s => .ok (s.toList.map (fun c => .vstr c.toString))
  | .vdict es => .ok (es.map (fun e => .vstr e.1))
  | _ => .error .typeError

/-- Effectful map over a list (structural recursion; `Except` short-circuits
exactly like the Python `for` loops it models). -/
def mapME {α β : Type} (f : α → Except PyErr β) : List α → Except PyErr (List β)
  | [] => .ok []
  | a :: as => do
      let b ← f a
      let bs ← mapME f as
      return b :: bs

/-! ## Python `float()` -/

/-- Value of a digit string. -/
def digitsVal (ds : List Char) : Nat :=
  ds.foldl (fun n c => n * 10 + (c.toNat - 48)) 0

/-- Parse an unsigned decimal `digits[.digits]` (at least one digit in
total), as accepted by Python `float()` on simple inputs. -/
def parseUnsignedQ (cs : List Char) : Option Rat :=
  let ip := cs.takeWhile (fun c => !(c = '.'))
  let rest := cs.dropWhile (fun c => !(c = '.'))
  if ip.all isDigitCh then
    match rest with
    | [] => if ip.isEmpty then Option.none else some (digitsVal ip)
    | _ :: fp =>
        if fp.all isDigitCh && !(ip.isEmpty && fp.isEmpty) then
          some ((digitsVal ip : Rat) + (digitsVal fp : Rat) / ((10 : Rat) ^ fp.length))
        else Option.none
  else Option.none

/-- Simple-decimal fragment of Python float-literal parsing (whitespace is
stripped; exponents, infinities and underscores are outside the fragment the
pipeline's data can contain). -/
def parseFloatQ (s : String) : Option Rat :=
  match pstrip s.toList with
  | '-' :: rest => (parseUnsignedQ rest).map (fun q => -q)
  | '+' :: rest => parseUnsignedQ rest
  | cs => parseUnsignedQ cs

/-- Python `float(v)`: numbers and booleans convert; strings parse or raise
`ValueError`; everything else raises `TypeError`. -/
def pyFloat : PyVal → Except PyErr Rat
  | .vint n => .ok n
  | .vfloat q => .ok q
  | .vbool b => .ok (if b then 1 else 0)
  | .vstr s =>
      match parseFloatQ s with
      | some q => .ok q
      | Option.none => .error .valueError
  | _ => .error .typeError

/-! ## `OCRProcessor._normalize_polygon` / `_safe_polygon`
(ocr_processor.py 201-239) -/

/-- `isinstance(v, (int, float))` — Python `bool` is a subclass of `int`. -/
def isNumLike : PyVal → Bool
  | .vint _ => true
  | .vfloat _ => true
  | .vbool _ => true
  | _ => false

def mkPoint (qx qy : Rat) : PyVal :=
  .vdict [("x", .vfloat qx), ("y", .vfloat qy)]

/-- Flat-array branch: `[x1, y1, x2, y2, ...]` consumed two at a time; a
trailing odd element is ignored (`if i + 1 < len`). -/
def flatPoints : List PyVal → Except PyErr (List PyVal)
  | a :: b :: rest => do
      let qx ← pyFloat a
      let qy ← pyFloat b
      let ps ← flatPoints rest
      return mkPoint qx qy :: ps
  | _ => .ok []

/-- Per-entry conversion of the point-object branch: attribute-style points,
dict-style points, 2-element sequences; anything else is skipped (`none`
means the entry matched no branch and was skipped). -/
def entryConv (p : PyVal) : Except PyErr (Option (Rat × Rat)) :=
  if hasattrB p "x" && hasattrB p "y" then do
    let qx ← pyFloat (getattrD p "x" .none)
    let qy ← pyFloat (getattrD p "y" .none)
    return some (qx, qy)
  else
    match p with
    | .vdict es =>
        if es.any (fun e => e.1 == "x") && es.any (fun e => e.1 == "y") then do
          let qx ← pyFloat ((dictGet? es "x").getD .none)
          let qy ← pyFloat ((dictGet? es "y").getD .none)
          return some (qx, qy)
        else return Option.none
    | .vlist xs =>
        if xs.length ≥ 2 then do
          let qx ← pyFloat (xs.getD 0 .none)
          let qy ← pyFloat (xs.getD 1 .none)
          return some (qx, qy)
        else return Option.none
    | _ => return Option.none

/-- Point-object branch loop. -/
def objPoints : List PyVal → Except PyErr (List PyVal)
  | [] => .ok []
  | p :: rest => do
      let pt ← entryConv p
      let ps ← objPoints rest
      match pt with
      | some (qx, qy) => return mkPoint qx qy :: ps
      | Option.none => return ps

/-- The `try`-block body of `_normalize_polygon`. -/
def normalizePolygonBody (polygon : PyVal) : Except PyErr (List PyVal) :=
  match polygon with
  | .vlist (p0 :: rest) =>
      if isNumLike p0 then flatPoints (p0 :: rest)
      else objPoints (p0 :: rest)
  | _ => .ok []

/-- `_normalize_polygon`: falsy input short-circuits to `[]`; any exception
in the body is caught and also yields `[]` (discarding points already
collected). -/
def normalizePolygon (polygon : PyVal) : List PyVal :=
  if !pyTruthy polygon then []
  else
    match normalizePolygonBody polygon with
    | .ok pts => pts
    | .error _ => []

/-- `_safe_polygon`. -/
def safePolygon (v : PyVal) : List PyVal :=
  if hasattrB v "polygon" then normalizePolygon (getattrD v "polygon" .none) else []

/-! ## `OCRProcessor._process_key_value` / `_process_table`
(ocr_processor.py 241-287) -/

/-- The `try`-block body of `_process_key_value`; the final guard drops
pairs whose key and value are both falsy. -/
def processKeyValueE (kv : PyVal) : Except PyErr (Option PyVal) := do
  let kkey := if hasattrB kv "key" && pyTruthy (getattrD kv "key" .none)
              then getattrD (getattrD kv "key" .none) "content" (.vstr "")
              else .vstr ""
  let kval := if hasattrB kv "value" && pyTruthy (getattrD kv "value" .none)
              then getattrD (getattrD kv "value" .none) "content" (.vstr "")
              else .vstr ""
  let conf ← if hasattrB kv "confidence" then do
                let q ← pyFloat (getattrD kv "confidence" .none)
                pure (PyVal.vfloat q)
             else pure (PyVal.vfloat 0)
  if pyTruthy kkey || pyTruthy kval then
    return some (.vdict [("key", kkey), ("value", kval), ("confidence", conf)])
  else
    return Option.none

/-- `_process_key_value`: exceptions are caught and yield `None`. -/
def processKeyValue (kv : PyVal) : Option PyVal :=
  match processKeyValueE kv with
  | .ok r => r
  | .error _ => Option.none

def processCell (cell : PyVal) : PyVal :=
  .vdict [("row_index", getattrD cell "row_index" (.vint 0)),
          ("column_index", getattrD cell "column_index" (.vint 0)),
          ("content", getattrD cell "content" (.vstr "")),
          ("row_span", getattrD cell "row_span" (.vint 1)),
          ("column_span", getattrD cell "column_span" (.vint 1))]

/-- The `try`-block body of `_process_table`. -/
def processTableE (table : PyVal) : Except PyErr PyVal := do
  let cells ← if hasattrB table "cells" then do
                 let xs ← pyIter (getattrD table "cells" .none)
                 pure (xs.map processCell)
              else pure []
  return .vdict [("row_count", getattrD table "row_count" (.vint 0)),
                 ("column_count", getattrD table "column_count" (.vint 0)),
                 ("cells", .vlist cells)]

/-- `_process_table`: exceptions are caught and yield `None`. -/
def processTable (table : PyVal) : Option PyVal :=
  match processTableE table with
  | .ok t => some t
  | .error _ => Option.none

/-! ## `OCRProcessor._process_result` (ocr_processor.py 93-199) -/

def processWord (word : PyVal) : PyVal :=
  .vdict [("content", getattrD word "content" (.vstr "")),
          ("polygon", .vlist (safePolygon word)),
          ("confidence", getattrD word "confidence" (.vfloat 0))]

def processLine (pageNumber line : PyVal) : PyVal :=
  .vdict [("content", getattrD line "content" (.vstr "")),
          ("polygon", .vlist (safePolygon line)),
          ("page_number", pageNumber)]

def processMark (pageNumber mark : PyVal) : PyVal :=
  .vdict [("state", getattrD mark "state" (.vstr "unselected")),
          ("polygon", .vlist (safePolygon mark)),
          ("confidence", getattrD mark "confidence" (.vfloat 0)),
          ("page_number", pageNumber)]

/-- One iteration of the page loop: builds `page_info` (the per-page word,
line and selection-mark lists are the very lists also appended to the
flattened cross-page sequences, so the flattened sequences are recovered
from the page dicts when assembling the result). -/
def processPage (page : PyVal) : Except PyErr PyVal := do
  let pn := getattrD page "page_number" (.vint 1)
  let words ← if hasattrB page "words" && pyTruthy (getattrD page "words" .none) then do
                 let xs ← pyIter (getattrD page "words" .none)
                 pure (xs.map processWord)
              else pure []
  let lines ← if hasattrB page "lines" && pyTruthy (getattrD page "lines" .none) then do
                 let xs ← pyIter (getattrD page "lines" .none)
                 pure (xs.map (processLine pn))
              else pure []
  let marks ← if hasattrB page "selection_marks" && pyTruthy (getattrD page "selection_marks" .none) then do
                 let xs ← pyIter (getattrD page "selection_marks" .none)
                 pure (xs.map (processMark pn))
              else pure []
  return .vdict [("page_number", pn),
                 ("width", getattrD page "width" (.vint 0)),
                 ("height", getattrD page "height" (.vint 0)),
                 ("unit", getattrD page "unit" (.vstr "pixel")),
                 ("words", .vlist words),
                 ("lines", .vlist lines),
                 ("selection_marks", .vlist marks)]

def processRegion (region : PyVal) : PyVal :=
  .vdict [("page_number", getattrD region "page_number" (.vint 1)),
          ("polygon", .vlist (safePolygon region))]

def processParagraph (para : PyVal) : Except PyErr PyVal := do
  let regions ← if hasattrB para "bounding_regions" then do
                   let xs ← pyIter (getattrD para "bounding_regions" .none)
                   pure (xs.map processRegion)
                else pure []
  return .vdict [("content", getattrD para "content" (.vstr "")),
                 ("bounding_regions", .vlist regions)]

/-- The list stored under `k` in a dict (used to read back the per-page
lists when flattening). -/
def dictList (v : PyVal) (k : String) : List PyVal :=
  match v with
  | .vdict es =>
      match dictGet? es k with
      | some (.vlist xs) => xs
      | _ => []
  | _ => []

/-- The value stored under `k` in a dict (default `None`). -/
def dictVal (v : PyVal) (k : String) : PyVal :=
  match v with
  | .vdict es => (dictGet? es k).getD .none
  | _ => .none

/-- `_process_result`: no exception handler of its own — a section whose
guard passes but whose data cannot be iterated propagates the exception. -/
def processResult (result : PyVal) : Except PyErr PyVal := do
  let pages ← if hasattrB result "pages" && pyTruthy (getattrD result "pages" .none) then do
                 let xs ← pyIter (getattrD result "pages" .none)
                 mapME processPage xs
              else pure []
  let allWords := (pages.map (fun p => dictList p "words")).flatten
  let allLines := (pages.map (fun p => dictList p "lines")).flatten
  let allMarks := (pages.map (fun p => dictList p "selection_marks")).flatten
  let lineContents := allLines.map (fun l => dictVal l "content")
  let paragraphs ← if hasattrB result "paragraphs" && pyTruthy (getattrD result "paragraphs" .none) then do
                      let xs ← pyIter (getattrD result "paragraphs" .none)
                      mapME processParagraph xs
                   else pure []
  let paraContents := paragraphs.filterMap (fun p =>
      let c := dictVal p "content"
      if pyTruthy c then some c else Option.none)
  let tables ← if hasattrB result "tables" && pyTruthy (getattrD result "tables" .none) then do
                  let xs ← pyIter (getattrD result "tables" .none)
                  pure (xs.filterMap processTable)
               else pure []
  let kvs ← if hasattrB result "key_value_pairs" && pyTruthy (getattrD result "key_value_pairs" .none) then do
               let xs ← pyIter (getattrD result "key_value_pairs" .none)
               pure (xs.filterMap processKeyValue)
            else pure []
  let topContent := if hasattrB result "content" && pyTruthy (getattrD result "content" .none)
                    then [getattrD result "content" .none] else []
  return .vdict [("pages", .vlist pages),
                 ("paragraphs", .vlist paragraphs),
                 ("tables", .vlist tables),
                 ("selection_marks", .vlist allMarks),
                 ("key_value_pairs", .vlist kvs),
                 ("lines", .vlist allLines),
                 ("words", .vlist allWords),
                 ("content", .vlist (lineContents ++ paraContents ++ topContent))]

/-- The empty-but-valid canonical result (`processed` before any section
runs). -/
def emptyProcessedV : PyVal :=
  .vdict [("pages", .vlist []),
          ("paragraphs", .vlist []),
          ("tables", .vlist []),
          ("selection_marks", .vlist []),
          ("key_value_pairs", .vlist []),
          ("lines", .vlist []),
          ("words", .vlist []),
          ("content", .vlist [])]

/-! ## `FieldValidator` (field_validator.py) -/

/-- Numeric coercion used by Python `+` with a float accumulator. -/
def pyNum : PyVal → Except PyErr Rat
  | .vint n => .ok n
  | .vfloat q => .ok q
  | .vbool b => .ok (if b then 1 else 0)
  | _ => .error .typeError

/-- The 36 dotted field paths of `_calculate_completeness`
(field_validator.py 45-62), in source order. -/
def fieldsToCheck : List String :=
  [ "lastName", "firstName", "idNumber", "gender",
    "dateOfBirth.day", "dateOfBirth.month", "dateOfBirth.year",
    "address.street", "address.houseNumber", "address.entrance",
    "address.apartment", "address.city", "address.postalCode",
    "address.poBox",
    "landlinePhone", "mobilePhone", "jobType",
    "dateOfInjury.day", "dateOfInjury.month", "dateOfInjury.year",
    "timeOfInjury", "accidentLocation", "accidentAddress",
    "accidentDescription", "injuredBodyPart", "signature",
    "formFillingDate.day", "formFillingDate.month",
    "formFillingDate.year",
    "formReceiptDateAtClinic.day", "formReceiptDateAtClinic.month",
    "formReceiptDateAtClinic.year",
    "medicalInstitutionFields.healthFundMember",
    "medicalInstitutionFields.natureOfAccident",
    "medicalInstitutionFields.medicalDiagnoses" ]

/-- `str.split(sep)` for a one-character separator (accumulator holds the
current segment reversed). -/
def splitCharAux (sep : Char) : List Char → List Char → List String
  | [], acc => [String.mk acc.reverse]
  | c :: cs, acc =>
      if c = sep then String.mk acc.reverse :: splitCharAux sep cs []
      else splitCharAux sep cs (c :: acc)

/-- Python `s.split(sep)` (one-character separator). -/
def pySplit (s : String) (sep : Char) : List String :=
  splitCharAux sep s.toList []

/-- The path walk of `_is_field_filled`: any non-dict intermediate value or
missing key yields `False`. -/
def walkPath : PyVal → List String → Option PyVal
  | current, [] => some current
  | current, part :: rest =>
      match current with
      | .vdict es =>
          match dictGet? es part with
          | some v => walkPath v rest
          | Option.none => Option.none
      | _ => Option.none

/-- `_is_field_filled` (field_validator.py 92-103): resolve the dotted path,
then `bool(str(current).strip())` with `None` counting as unfilled. -/
def isFieldFilled (data : PyVal) (fieldPath : String) : Bool :=
  match walkPath data (pySplit fieldPath '.') with
  | some .none => false
  | some v => !(pstrip (pyStr v).toList).isEmpty
  | Option.none => false

/-- `_calculate_completeness` (field_validator.py 39-72): the score (as a
rational; exact at the points evaluated by the claims) together with the
`empty_fields` list in iteration order. -/
def calcCompleteness (data : PyVal) : Rat × List String :=
  let total := fieldsToCheck.length
  let filled := (fieldsToCheck.filter (fun p => isFieldFilled data p)).length
  let empties := fieldsToCheck.filter (fun p => !isFieldFilled data p)
  (if total > 0 then (filled : Rat) / (total : Rat) * 100 else 0, empties)

/-- One iteration of the `_calculate_ocr_confidence` word loop. -/
def confStep (acc : Rat × Nat) (word : PyVal) : Except PyErr (Rat × Nat) := do
  let c ← pyGet word "confidence"
  match c with
  | .none => pure acc
  | v => do
      let q ← pyNum v
      pure (acc.1 + q, acc.2 + 1)

/-- `_calculate_ocr_confidence` (field_validator.py 74-90). -/
def calcOcrConfidence (ocr : PyVal) : Except PyErr Rat :=
  if !pyTruthy ocr then .ok 50
  else do
    let ws ← pyGet ocr "words"
    if !pyTruthy ws then .ok 50
    else do
      let items ← pyIter ws
      let tc ← items.foldlM confStep ((0 : Rat), (0 : Nat))
      if tc.2 = 0 then .ok 50
      else .ok (tc.1 / (tc.2 : Rat) * 100)

/-- `str(v)` followed by `.strip()` is only defined on strings. -/
def asStr : PyVal → Except PyErr String
  | .vstr s => .ok s
  | _ => .error .attributeError

/-- `_validate_formats` (field_validator.py 105-118): both checks are
guarded by the truthiness of the field, and `filter(str.isdigit, value)`
requires a string. -/
def validateFormats (data : PyVal) : Except PyErr (List String) := do
  let idv ← pyGet data "idNumber"
  let w1 ← if pyTruthy idv then do
              let s ← asStr (dictVal data "idNumber")
              let digits := s.toList.filter isDigitCh
              if digits.length = 9 || digits.length = 10 then pure []
              else pure ["Invalid ID number length: " ++ toString digits.length ++ " digits"]
           else pure ([] : List String)
  let mv ← pyGet data "mobilePhone"
  let w2 ← if pyTruthy mv then do
              let s ← asStr (dictVal data "mobilePhone")
              let digits := s.toList.filter isDigitCh
              if ['0', '5'].isPrefixOf digits && digits.length = 10 then pure []
              else pure ["Invalid mobile phone format"]
           else pure ([] : List String)
  return w1 ++ w2

/-- The scratch state `validate_fields` recomputes per call. -/
structure ValidationOutcome where
  data : PyVal
  warnings : List String
  completeness : Rat
  accuracy : Rat
  emptyFields : List String
deriving Repr

/-- `FieldValidator.validate_fields` (field_validator.py 11-37): note the
accuracy ternary `... if ocr_result else 0.5` — a falsy or absent
`ocr_result` short-circuits to `0.5` without calling
`_calculate_ocr_confidence`. -/
def validateFields (data : PyVal) (ocrResult : Option PyVal) : Except PyErr ValidationOutcome := do
  let comp := calcCompleteness data
  let acc ← match ocrResult with
            | some o => if pyTruthy o then calcOcrConfidence o else pure ((1 : Rat) / 2)
            | Option.none => pure ((1 : Rat) / 2)
  let ws ← validateFormats data
  return ⟨data, ws, comp.1, acc, comp.2⟩

/-! ## `FormProcessor._prepare_ocr_text_for_gpt` (main.py 198-261) and
`_get_line_y_pos` (main.py 289-295) -/

/-- `clean` applied to a value the source guards to be truthy text; `re.sub`
on a non-string raises `TypeError` (every call site first checks truthiness,
so the `if not text` early return of `_clean_ocr_artifacts` is never reached
with a non-string). -/
def cleanPy : PyVal → Except PyErr String
  | .vstr s => .ok (cleanS s)
  | _ => .error .typeError

/-- `_get_line_y_pos`: mean of the `y` coordinates of polygon points that
contain a `y` key; `0` for an empty polygon or when no point has `y`. -/
def getLineYPos (line : PyVal) : Except PyErr Rat := do
  let polygon ← pyGetD line "polygon" (.vlist [])
  if pyTruthy polygon then do
    let pts ← pyIter polygon
    let withY ← pts.filterM (fun p => pyContains p "y")
    let ys ← mapME (fun p => pyGetD p "y" (.vint 0)) withY
    if ys.isEmpty then pure 0
    else do
      let qs ← mapME pyNum ys
      pure (qs.sum / (qs.length : Rat))
  else pure 0

/-- Stable insertion into a key-sorted list: an element goes after every
element whose key is less than or equal to its own. -/
def insertByY (x : PyVal × Rat) : List (PyVal × Rat) → List (PyVal × Rat)
  | [] => [x]
  | y :: ys => if y.2 ≤ x.2 then y :: insertByY x ys else x :: y :: ys

/-- Stable ascending sort by key (Python `sorted` is stable; any stable sort
agrees with it on a total preorder of keys). -/
def sortByY (items : List (PyVal × Rat)) : List (PyVal × Rat) :=
  items.foldl (fun acc x => insertByY x acc) []

/-- The per-page section of `_prepare_ocr_text_for_gpt`: a page marker, then
each line's cleaned stripped content in ascending mean-`y` order (empty
contents are skipped). -/
def pagePart (page : PyVal) : Except PyErr (List String) := do
  let pn ← pyGetD page "page_number" (.vint 1)
  let header := "\n=== PAGE " ++ pyStr pn ++ " ==="
  let lns ← pyGetD page "lines" (.vlist [])
  let body ← if pyTruthy lns then do
      let items ← pyIter lns
      let keyed ← mapME (fun l => do
          let y ← getLineYPos l
          pure (l, y)) items
      let sortedLines := sortByY keyed
      let outs ← mapME (fun p => do
          let cv ← pyGetD p.1 "content" (.vstr "")
          let s ← asStr cv
          let stripped := String.mk (pstrip s.toList)
          if stripped = "" then pure ([] : List String)
          else pure [cleanS stripped]) sortedLines
      pure outs.flatten
    else pure []
  return header :: body

/-- The checkbox scan: one marker per selected mark. -/
def checkboxInfo (pages : List PyVal) : Except PyErr (List String) := do
  let perPage ← mapME (fun page => do
      let marksV ← pyGetD page "selection_marks" (.vlist [])
      let marks ← pyIter marksV
      let outs ← mapME (fun mark => do
          let st ← pyGetD mark "state" (.vstr "unselected")
          if st == PyVal.vstr "selected" then pure ["CHECKED checkbox found"]
          else pure ([] : List String)) marks
      pure outs.flatten) pages
  return perPage.flatten

/-- One iteration of the key-value loop: a `key → value` line is emitted
only when BOTH `kv.get('key')` and `kv.get('value')` are truthy. -/
def kvLine (kv : PyVal) : Except PyErr (List String) := do
  let k ← pyGet kv "key"
  let v ← pyGet kv "value"
  if pyTruthy k && pyTruthy v then do
    let ks ← cleanPy (dictVal kv "key")
    let vs ← cleanPy (dictVal kv "value")
    pure [ks ++ " → " ++ vs]
  else pure ([] : List String)

/-- `_prepare_ocr_text_for_gpt` as its `text_parts` list (the function
returns `"\n".join(text_parts)`): page sections, checkbox section, key-value
section (only pairs with truthy key AND truthy value are emitted), table
section, fallback content section — in that fixed order. -/
def prepareOcrParts (ocr : PyVal) : Except PyErr (List String) := do
  let pagesV ← pyGetD ocr "pages" (.vlist [])
  let pages ← pyIter pagesV
  let pageParts ← mapME pagePart pages
  let pagesV2 ← pyGetD ocr "pages" (.vlist [])
  let pages2 ← pyIter pagesV2
  let cbs ← checkboxInfo pages2
  let cbPart := if !cbs.isEmpty then "\n=== CHECKBOXES ===" :: cbs else []
  let kvsV ← pyGet ocr "key_value_pairs"
  let kvPart ← if pyTruthy kvsV then do
        let kvs ← pyIter (dictVal ocr "key_value_pairs")
        let kvLines ← mapME kvLine kvs
        pure ("\n=== KEY-VALUE PAIRS ===" :: kvLines.flatten)
     else pure ([] : List String)
  let tablesV ← pyGet ocr "tables"
  let tblPart ← if pyTruthy tablesV then do
        let tbls ← pyIter (dictVal ocr "tables")
        let cellLines ← mapME (fun table => do
            let cellsV ← pyGetD table "cells" (.vlist [])
            let cells ← pyIter cellsV
            let outs ← mapME (fun cell => do
                let cv ← pyGet cell "content"
                if pyTruthy cv then do
                  let s ← cleanPy (dictVal cell "content")
                  pure [s]
                else pure ([] : List String)) cells
            pure outs.flatten) tbls
        pure ("\n=== TABLE CONTENT ===" :: cellLines.flatten)
     else pure ([] : List String)
  let contentV ← pyGetD ocr "content" (.vlist [])
  let ctPart ← if pyTruthy contentV then do
        let items ← pyIter contentV
        let outs := items.filterMap (fun c =>
            match c with
            | .vstr s =>
                let st := String.mk (pstrip s.toList)
                if st = "" then Option.none else some (cleanS st)
            | _ => Option.none)
        pure ("\n=== ALL OCR CONTENT ===" :: outs)
     else pure ([] : List String)
  return pageParts.flatten ++ cbPart ++ kvPart ++ tblPart ++ ctPart

/-- `_prepare_ocr_text_for_gpt`. -/
def prepareOcrTextForGpt (ocr : PyVal) : Except PyErr String := do
  let parts ← prepareOcrParts ocr
  return String.intercalate "\n" parts

/-- A schema-shaped record with every one of the 36 leaves holding a
non-blank value (witness data for the completeness claim). -/
def fullResultV : PyVal :=
  .vdict
    [ ("lastName", .vstr "a"),
      ("firstName", .vstr "a"),
      ("idNumber", .vstr "123456789"),
      ("gender", .vstr "a"),
      ("dateOfBirth", .vdict [("day", .vstr "1"), ("month", .vstr "2"), ("year", .vstr "1990")]),
      ("address", .vdict
        [ ("street", .vstr "a"), ("houseNumber", .vstr "3"), ("entrance", .vstr "b"),
          ("apartment", .vstr "4"),
          ("city", .vstr "a"), ("postalCode", .vstr "12345"), ("poBox", .vstr "9") ]),
      ("landlinePhone", .vstr "031234567"),
      ("mobilePhone", .vstr "0551234567"),
      ("jobType", .vstr "a"),
      ("dateOfInjury", .vdict [("day", .vstr "1"), ("month", .vstr "2"), ("year", .vstr "2020")]),
      ("timeOfInjury", .vstr "10:00"),
      ("accidentLocation", .vstr "a"),
      ("accidentAddress", .vstr "a"),
      ("accidentDescription", .vstr "a"),
      ("injuredBodyPart", .vstr "a"),
      ("signature", .vstr "a"),
      ("formFillingDate", .vdict [("day", .vstr "1"), ("month", .vstr "2"), ("year", .vstr "2020")]),
      ("formReceiptDateAtClinic", .vdict [("day", .vstr "1"), ("month", .vstr "2"), ("year", .vstr "2020")]),
      ("medicalInstitutionFields", .vdict
        [ ("healthFundMember", .vstr "a"),
          ("natureOfAccident", .vstr "a"),
          ("medicalDiagnoses", .vstr "a") ]) ]

/-- Canonical key-value pair dict, as built by `_process_key_value`. -/
def mkKv (k v : String) : PyVal :=
  .vdict [("key", .vstr k), ("value", .vstr v), ("confidence", .vfloat 0)]

/-! Claim theorems -/

/-- C5 (counterexample): the spec's spaced example is wrong on the code —
`"8 50123456"` has only seven digits after the `5`, so the pattern
`\b8\s*5(\d{8})\b` cannot match and the cleaner returns the text unchanged
(modulo whitespace normalisation), not `"0550123456"`. -/
theorem clean_spaced_example_cex :
    cleanS "8 50123456" ≠ "0550123456" ∧ cleanS "8 50123456" = "8 50123456" :=
  ⟨by decide, by decide⟩

/-- C5 (amended): `clean("8550123456") = "0550123456"` and
`clean("no phone here") = "no phone here"` hold as claimed; the spaced
variant needs `8` + optional whitespace + `5` + EIGHT digits, e.g.
`clean("8 550123456") = "0550123456"`, while the spec's `"8 50123456"`
(seven digits after the `5`) is returned unchanged. -/
theorem clean_examples_amended :
    cleanS "8550123456" = "0550123456" ∧
    cleanS "8 550123456" = "0550123456" ∧
    cleanS "no phone here" = "no phone here" :=
  ⟨by decide, by decide, by decide⟩

/-- C3 (code bug): with the `ocrResult` argument absent, `validate_fields`
sets the accuracy score to `0.5` via the ternary
`self._calculate_ocr_confidence(ocr_result) if ocr_result else 0.5`, not to
`50.0` as the claim states — even though `_calculate_ocr_confidence` itself
would return `50.0` for the same falsy input (its own documented default),
so the two code paths contradict each other by a factor of 100. -/
theorem validator_accuracy_absent_ocr_bug :
    (validateFields emptyResultV Option.none).map (fun r => r.accuracy) = .ok (1 / 2) ∧
    calcOcrConfidence PyVal.none = .ok 50 ∧
    ((1 : Rat) / 2) ≠ 50 :=
  ⟨rfl, rfl, by norm_num⟩

/-- C4 (counterexample): there is no `MalformedInputError` anywhere in the
sources; on an unusable root object (here: the integer 5) `_process_result`
does not raise — every `hasattr` guard is false, so it returns the
empty-but-valid canonical result. -/
theorem normalizer_unusable_root_cex :
    processResult (.vint 5) = .ok emptyProcessedV :=
  rfl

/-- C4 (amended): the normalizer never raises for a raw result missing every
optional field, returning the empty-but-valid canonical result (empty
sequences everywhere); an unusable root object is treated the same way —
it also yields the empty canonical result instead of raising a
`MalformedInputError`. -/
theorem normalizer_missing_fields_amended :
    ∀ v : PyVal,
      hasattrB v "pages" = false →
      hasattrB v "paragraphs" = false →
      hasattrB v "tables" = false →
      hasattrB v "key_value_pairs" = false →
      hasattrB v "content" = false →
      processResult v = .ok emptyProcessedV := by
  intro v h1 h2 h3 h4 h5
  simp [processResult, h1, h2, h3, h4, h5, emptyProcessedV, Bind.bind, Except.bind, pure,
        Except.pure]

/-- Witness for C4's amended theorem at a concrete attribute-free object. -/
theorem normalizer_missing_fields_amended_witness :
    processResult (.vobj []) = .ok emptyProcessedV :=
  normalizer_missing_fields_amended (.vobj []) rfl rfl rfl rfl rfl

/-- C8 (counterexample): a single malformed entry inside a recognized branch
(a dict point whose `x` fails `float()`) does abort the whole polygon: the
`except` handler returns `[]`, discarding the point already collected from
the preceding well-formed entry. -/
theorem polygon_bad_entry_discards_cex :
    normalizePolygon (.vlist [ .vdict [("x", .vint 1), ("y", .vint 2)] ]) = [mkPoint 1 2] ∧
    normalizePolygon (.vlist
      [ .vdict [("x", .vint 1), ("y", .vint 2)],
        .vdict [("x", .vlist []), ("y", .vint 3)] ]) = [] :=
  ⟨rfl, rfl⟩

/-- C8 (amended): polygon normalization is total in the embedding (every
exception is caught) and returns `[]` for missing or falsy polygon data;
entries of unrecognized SHAPE are skipped individually while the recognized
entries of the same polygon are still converted — but an entry of recognized
shape whose coordinate fails numeric conversion raises, and the handler then
discards the whole polygon (see the counterexample). -/
theorem polygon_skip_amended :
    (∀ v : PyVal, hasattrB v "polygon" = false → safePolygon v = []) ∧
    normalizePolygon PyVal.none = [] ∧
    (∀ p0 ps, isNumLike p0 = false →
      (∀ p ∈ p0 :: ps, (entryConv p).isOk = true) →
      normalizePolygon (.vlist (p0 :: ps)) =
        (p0 :: ps).filterMap (fun p =>
          match entryConv p with
          | .ok (some pt) => some (mkPoint pt.1 pt.2)
          | _ => Option.none)) := by
  refine ⟨fun v hv => by simp [safePolygon, hv], rfl, ?_⟩
  have obj : ∀ ps : List PyVal, (∀ p ∈ ps, (entryConv p).isOk = true) →
      objPoints ps = .ok (ps.filterMap (fun p =>
        match entryConv p with
        | .ok (some pt) => some (mkPoint pt.1 pt.2)
        | _ => Option.none)) := by
    intro ps h
    induction ps with
    | nil => rfl
    | cons p rest ih =>
        have hp : (entryConv p).isOk = true := h p (List.mem_cons_self p rest)
        have hrest := ih (fun q hq => h q (List.mem_cons_of_mem p hq))
        match he : entryConv p with
        | .ok (some pt) =>
            simp [objPoints, he, hrest, Bind.bind, Except.bind, pure, Except.pure,
                  List.filterMap]
        | .ok Option.none =>
            simp [objPoints, he, hrest, Bind.bind, Except.bind, pure, Except.pure,
                  List.filterMap]
        | .error e => rw [he] at hp; simp [Except.isOk, Except.toBool] at hp
  intro p0 ps hnum h
  have hbody : normalizePolygonBody (.vlist (p0 :: ps)) =
      .ok ((p0 :: ps).filterMap (fun p =>
        match entryConv p with
        | .ok (some pt) => some (mkPoint pt.1 pt.2)
        | _ => Option.none)) := by
    simp [normalizePolygonBody, hnum, obj (p0 :: ps) h]
  simp [normalizePolygon, pyTruthy, hbody]

/-- Witness for C8's amended theorem: an unrecognized string entry is
skipped while the well-formed dict entry of the same polygon is converted. -/
theorem polygon_skip_amended_witness :
    normalizePolygon (.vlist [.vstr "junk", .vdict [("x", .vint 1), ("y", .vint 2)]]) =
      [mkPoint 1 2] := by
  have h := polygon_skip_amended.2.2 (.vstr "junk")
    [ .vdict [("x", .vint 1), ("y", .vint 2)] ] rfl
    (by intro p hp; fin_cases hp <;> rfl)
  simpa using h

/-- Shape of `_validate_formats` output on a dict record: the warnings are
the concatenation of an ID part (empty, or one ID-length warning when the
field is truthy) and a mobile part (empty, or the one phone-format warning
when the field is truthy). -/
theorem validateFormats_spec (es : List (String × PyVal)) (ws : List String)
    (h : validateFormats (.vdict es) = .ok ws) :
    ∃ w1 w2, ws = w1 ++ w2 ∧
      (w1 = [] ∨ (pyTruthy ((dictGet? es "idNumber").getD .none) = true ∧
        ∃ n : Nat, w1 = ["Invalid ID number length: " ++ toString n ++ " digits"])) ∧
      (w2 = [] ∨ (pyTruthy ((dictGet? es "mobilePhone").getD .none) = true ∧
        w2 = ["Invalid mobile phone format"])) := by
  simp only [validateFormats, pyGet, Bind.bind, Except.bind, pure, Except.pure] at h
  by_cases hid : pyTruthy ((dictGet? es "idNumber").getD PyVal.none) = true
  · rw [if_pos hid] at h
    cases hs : asStr (dictVal (PyVal.vdict es) "idNumber") with
    | error e => rw [hs] at h; cases h
    | ok s =>
        rw [hs] at h
        simp only [Except.bind] at h
        by_cases hm : pyTruthy ((dictGet? es "mobilePhone").getD PyVal.none) = true
        · rw [if_pos hm] at h
          cases hs2 : asStr (dictVal (PyVal.vdict es) "mobilePhone") with
          | error e =>
              rw [hs2] at h
              split at h <;> cases h
          | ok s2 =>
              rw [hs2] at h
              simp only [Except.bind] at h
              split at h <;> split at h <;> (injection h with h2; subst h2)
              · exact ⟨[], [], rfl, Or.inl rfl, Or.inl rfl⟩
              · exact ⟨[], _, rfl, Or.inl rfl, Or.inr ⟨hm, rfl⟩⟩
              · exact ⟨_, [], rfl, Or.inr ⟨hid, _, rfl⟩, Or.inl rfl⟩
              · exact ⟨_, _, rfl, Or.inr ⟨hid, _, rfl⟩, Or.inr ⟨hm, rfl⟩⟩
        · rw [if_neg hm] at h
          try simp only [Except.bind] at h
          split at h <;> (injection h with h2; subst h2)
          · exact ⟨[], [], rfl, Or.inl rfl, Or.inl rfl⟩
          · exact ⟨_, [], rfl, Or.inr ⟨hid, _, rfl⟩, Or.inl rfl⟩
  · rw [if_neg hid] at h
    try simp only [Except.bind] at h
    by_cases hm : pyTruthy ((dictGet? es "mobilePhone").getD PyVal.none) = true
    · rw [if_pos hm] at h
      cases hs2 : asStr (dictVal (PyVal.vdict es) "mobilePhone") with
      | error e => rw [hs2] at h; cases h
      | ok s2 =>
          rw [hs2] at h
          try simp only [Except.bind] at h
          split at h <;> (injection h with h2; subst h2)
          · exact ⟨[], [], rfl, Or.inl rfl, Or.inl rfl⟩
          · exact ⟨[], _, rfl, Or.inl rfl, Or.inr ⟨hm, rfl⟩⟩
    · rw [if_neg hm] at h
      try simp only [Except.bind] at h
      injection h with h2; subst h2
      exact ⟨[], [], rfl, Or.inl rfl, Or.inl rfl⟩

/-- An ID-length warning always starts with the ID prefix, so it is never
the phone-format warning. -/
theorem idWarning_ne_mobile (n : Nat) :
    "Invalid ID number length: " ++ toString n ++ " digits" ≠
      "Invalid mobile phone format" := by
  intro h
  have hpre : ("Invalid ID number length: ".toList.isPrefixOf
      ("Invalid mobile phone format".toList)) = true := by
    rw [← h]
    show ("Invalid ID number length: ".toList.isPrefixOf
      ("Invalid ID number length: ".toList ++ ((toString n).toList ++ " digits".toList))) = true
    rw [List.isPrefixOf_iff_prefix]
    exact List.prefix_append _ _
  revert hpre; decide

/-- C10: format checks only fire on truthy fields — with a falsy (empty or
missing) `idNumber` no ID-length warning can appear in the warnings, with a
falsy `mobilePhone` the phone-format warning cannot appear, and validating
the canonical empty record yields an empty warnings list. -/
theorem format_checks_only_nonempty :
    (∀ (es : List (String × PyVal)) (ws : List String),
        pyTruthy ((dictGet? es "idNumber").getD .none) = false →
        validateFormats (.vdict es) = .ok ws →
        ∀ w ∈ ws, ("Invalid ID number length: ".toList.isPrefixOf w.toList) = false) ∧
    (∀ (es : List (String × PyVal)) (ws : List String),
        pyTruthy ((dictGet? es "mobilePhone").getD .none) = false →
        validateFormats (.vdict es) = .ok ws →
        "Invalid mobile phone format" ∉ ws) ∧
    (validateFields emptyResultV Option.none).map (fun r => r.warnings) = .ok [] := by
  refine ⟨?_, ?_, rfl⟩
  · intro es ws hid hok w hw
    obtain ⟨w1, w2, hws, h1, h2⟩ := validateFormats_spec es ws hok
    have hw1 : w1 = [] := by
      rcases h1 with h | ⟨ht, _⟩
      · exact h
      · rw [hid] at ht; cases ht
    subst hws; subst hw1
    simp only [List.nil_append] at hw
    rcases h2 with h | ⟨_, h⟩
    · subst h; cases hw
    · subst h
      rw [List.mem_singleton] at hw
      subst hw; decide
  · intro es ws hm hok hmem
    obtain ⟨w1, w2, hws, h1, h2⟩ := validateFormats_spec es ws hok
    have hw2 : w2 = [] := by
      rcases h2 with h | ⟨ht, _⟩
      · exact h
      · rw [hm] at ht; cases ht
    subst hws; subst hw2
    simp only [List.append_nil] at hmem
    rcases h1 with h | ⟨_, n, h⟩
    · subst h; cases hmem
    · subst h
      rw [List.mem_singleton] at hmem
      exact idWarning_ne_mobile n hmem.symm

/-- Witness for C10 at a record with falsy `idNumber` and `mobilePhone`. -/
theorem format_checks_only_nonempty_witness :
    ("Invalid ID number length: ".toList.isPrefixOf
        "Invalid mobile phone format".toList) = false ∧
    "Invalid mobile phone format" ∉ ["Invalid ID number length: 1 digits"] := by
  constructor
  · exact format_checks_only_nonempty.1
      [("mobilePhone", .vstr "123")] ["Invalid mobile phone format"]
      (by decide) (by rfl) "Invalid mobile phone format" (by decide)
  · exact format_checks_only_nonempty.2.1
      [("idNumber", .vstr "1")] ["Invalid ID number length: 1 digits"]
      (by decide) (by rfl)

/-- C2 (counterexample): the fixed path list of `_calculate_completeness`
has 35 entries, not 36 — `emptyFields` of the canonical empty record
contains 35 paths (the schema has 35 leaves), so the claim's count is
wrong. -/
theorem completeness_path_count_cex :
    (calcCompleteness emptyResultV).2.length = 35 ∧ (35 : Nat) ≠ 36 :=
  ⟨by decide, by decide⟩

/-- C2 (amended): the completeness score of the canonical empty record is
exactly 0 with `emptyFields` listing all 35 fixed paths (not 36) in their
fixed iteration order, and any record in which all 35 paths resolve to
non-blank values scores exactly 100 with no empty fields. -/
theorem completeness_empty_and_full :
    calcCompleteness emptyResultV = (0, fieldsToCheck) ∧
    fieldsToCheck.length = 35 ∧
    (∀ data : PyVal, (∀ p ∈ fieldsToCheck, isFieldFilled data p = true) →
      (calcCompleteness data).1 = 100 ∧ (calcCompleteness data).2 = []) := by
  refine ⟨?_, by decide, ?_⟩
  · have h1 : fieldsToCheck.filter (fun p => isFieldFilled emptyResultV p) = [] := by decide
    have h2 : fieldsToCheck.filter (fun p => !isFieldFilled emptyResultV p) = fieldsToCheck := by
      decide
    simp [calcCompleteness, h1, h2]
  · intro data h
    have h1 : fieldsToCheck.filter (fun p => isFieldFilled data p) = fieldsToCheck :=
      List.filter_eq_self.mpr h
    have h2 : fieldsToCheck.filter (fun p => !isFieldFilled data p) = [] := by
      rw [List.filter_eq_nil_iff]
      intro a ha
      simp [h a ha]
    have hl : fieldsToCheck.length = 35 := by decide
    constructor
    · simp [calcCompleteness, h1, hl]
    · simp [calcCompleteness, h2]

/-- Witness for C2 at a concrete fully-filled record. -/
theorem completeness_empty_and_full_witness :
    (calcCompleteness fullResultV).1 = 100 ∧ (calcCompleteness fullResultV).2 = [] :=
  completeness_empty_and_full.2.2 fullResultV (by decide)

/-- The key-value iteration on a canonical pair: a line appears exactly when
both sides are non-empty strings. -/
theorem kvLine_mkKv (k v : String) :
    kvLine (mkKv k v) =
      .ok (if (k != "") && (v != "") then [cleanS k ++ " → " ++ cleanS v] else []) := by
  by_cases hk : k = "" <;> by_cases hv : v = "" <;>
    simp [kvLine, mkKv, pyGet, dictGet?, dictVal, pyTruthy, cleanPy, hk, hv,
          Bind.bind, Except.bind, pure, Except.pure, List.find?]

/-- The key-value loop over canonical pairs never raises and yields one
optional line per pair. -/
theorem kvLine_loop (ps : List (String × String)) :
    mapME kvLine (ps.map (fun p => mkKv p.1 p.2)) =
      .ok (ps.map (fun p =>
        if (p.1 != "") && (p.2 != "") then [cleanS p.1 ++ " → " ++ cleanS p.2] else [])) := by
  induction ps with
  | nil => rfl
  | cons p rest ih =>
      simp [mapME, kvLine_mkKv, ih, Bind.bind, Except.bind, pure, Except.pure]

/-- Flattening singleton-or-empty blocks is a filtered map. -/
theorem flatten_map_ite {α β : Type} (c : α → Bool) (g : α → β) (ps : List α) :
    (ps.map (fun p => if c p then [g p] else [])).flatten = (ps.filter c).map g := by
  induction ps with
  | nil => rfl
  | cons p rest ih => by_cases h : c p <;> simp [h, ih]

/-- C7 (counterexample): a key-value pair with non-empty key and empty value
survives normalization (`_process_key_value` keeps it), yet the projector
emits NO `key → value` line for it — its guard requires BOTH sides truthy,
so only the section header appears. -/
theorem projector_kv_one_empty_cex :
    processKeyValue (.vobj [("key", .vobj [("content", .vstr "a")])]) = some (mkKv "a" "") ∧
    prepareOcrParts (.vdict [("key_value_pairs", .vlist [mkKv "a" ""])]) =
      .ok ["\n=== KEY-VALUE PAIRS ==="] :=
  ⟨rfl, rfl⟩

/-- C7 (amended): for every canonical key-value list the projector emits one
`key → value` line (both sides cleaned) exactly for the pairs whose key AND
value are both non-empty; pairs with exactly one empty side are dropped at
projection time even though normalization keeps them. -/
theorem projector_kv_filter_amended :
    ∀ ps : List (String × String),
      prepareOcrParts (.vdict [("key_value_pairs", .vlist (ps.map (fun p => mkKv p.1 p.2)))]) =
        .ok (if ps.isEmpty then [] else
          "\n=== KEY-VALUE PAIRS ===" ::
            (ps.filter (fun p => (p.1 != "") && (p.2 != ""))).map
              (fun p => cleanS p.1 ++ " → " ++ cleanS p.2)) := by
  intro ps
  cases ps with
  | nil => rfl
  | cons p rest =>
      have h2 : prepareOcrParts (.vdict [("key_value_pairs",
          .vlist ((p :: rest).map (fun q => mkKv q.1 q.2)))]) =
        Except.bind (mapME kvLine ((p :: rest).map (fun q => mkKv q.1 q.2)))
          (fun kvLines =>
            .ok ((("\n=== KEY-VALUE PAIRS ===" :: kvLines.flatten) ++ []) ++ [])) := rfl
      rw [h2, kvLine_loop]
      simp only [Except.bind]
      rw [flatten_map_ite]
      simp

/-- A true `isDict` exposes the entry list. -/
theorem isDict_true {t : PyVal} (h : isDict t = true) : ∃ ts, t = .vdict ts := by
  cases t <;> first
    | exact ⟨_, rfl⟩
    | exact absurd h (by simp [isDict])

/-- An `ok` result of `Except` from `isOk`. -/
theorem exists_ok {ε α : Type} {x : Except ε α} (h : x.isOk = true) : ∃ a, x = .ok a := by
  cases x with
  | error e => simp [Except.isOk, Except.toBool] at h
  | ok a => exact ⟨a, rfl⟩

/-- A key reported present by `any` is found by `dictGet?`. -/
theorem dictGet?_isSome_of_any {es : List (String × PyVal)} {k : String}
    (h : es.any (fun e => e.1 == k) = true) : ∃ v, dictGet? es k = some v := by
  induction es with
  | nil => simp at h
  | cons a as ih =>
      by_cases ha : a.1 == k
      · refine ⟨a.2, ?_⟩
        simp only [dictGet?, List.find?, ha]
      · have ha2 : (a.1 == k) = false := by simp [ha]
        simp only [List.any_cons, ha2, Bool.false_or] at h
        obtain ⟨v, hv⟩ := ih h
        refine ⟨v, ?_⟩
        simp only [dictGet?, List.find?, ha2] at hv ⊢
        exact hv

/-- Every template conforms to itself at the entry level (the `else` branch
of the merger copies template subtrees verbatim). -/
theorem conformsEntries_refl : ∀ ts : List (String × PyVal), conformsEntries ts ts = true
  | [] => rfl
  | (k, tv) :: rest => by
      by_cases hd : isDict tv
      · obtain ⟨tds, rfl⟩ := isDict_true hd
        simp [conformsEntries, conformsTo, conformsEntries_refl tds, conformsEntries_refl rest]
      · simp [conformsEntries, hd, conformsEntries_refl rest]
  termination_by ts => sizeOf ts

/-- Whenever `merge_with_template`'s entry walk succeeds, the produced entry
list has exactly the template's keys in order and conforms recursively. -/
theorem mergeEntries_conforms : ∀ (e : PyVal) (ts rs : List (String × PyVal)),
    mergeEntries e ts = .ok rs →
    rs.map Prod.fst = ts.map Prod.fst ∧ conformsEntries rs ts = true
  | e, [], rs, h => by
      simp only [mergeEntries] at h
      injection h with h2
      subst h2
      exact ⟨rfl, rfl⟩
  | e, (k, tv) :: rest, rs, h => by
      simp only [mergeEntries, Bind.bind] at h
      cases hc : pyContains e k with
      | error err => rw [hc] at h; cases h
      | ok c =>
          rw [hc] at h
          simp only [Except.bind] at h
          cases c with
          | false =>
              simp only [Bool.false_eq_true, if_false] at h
              cases hr : mergeEntries e rest with
              | error err => rw [hr] at h; cases h
              | ok rs2 =>
                  rw [hr] at h
                  simp only [Except.bind, pure, Except.pure] at h
                  injection h with h2
                  subst h2
                  obtain ⟨ih1, ih2⟩ := mergeEntries_conforms e rest rs2 hr
                  refine ⟨by simp [ih1], ?_⟩
                  by_cases hd : isDict tv
                  · obtain ⟨tds, rfl⟩ := isDict_true hd
                    simp [conformsEntries, conformsTo, conformsEntries_refl tds, ih2]
                  · simp [conformsEntries, hd, ih2]
          | true =>
              simp only [if_true] at h
              by_cases hd : isDict tv
              · rw [if_pos hd] at h
                obtain ⟨tds, rfl⟩ := isDict_true hd
                cases hsub : pyGetD e k (.vdict []) with
                | error err => rw [hsub] at h; cases h
                | ok sub =>
                    rw [hsub] at h
                    simp only [Except.bind] at h
                    cases hm : mergeWithTemplate sub (.vdict tds) with
                    | error err => rw [hm] at h; cases h
                    | ok m =>
                        rw [hm] at h
                        simp only [Except.bind] at h
                        cases hr : mergeEntries e rest with
                        | error err => rw [hr] at h; cases h
                        | ok rs2 =>
                            rw [hr] at h
                            simp only [Except.bind, pure, Except.pure] at h
                            injection h with h2
                            subst h2
                            obtain ⟨ih1, ih2⟩ := mergeEntries_conforms e rest rs2 hr
                            simp only [mergeWithTemplate, Bind.bind] at hm
                            cases hms : mergeEntries sub tds with
                            | error err => rw [hms] at hm; cases hm
                            | ok ms =>
                                rw [hms] at hm
                                simp only [Except.bind, pure, Except.pure] at hm
                                injection hm with hm2
                                subst hm2
                                obtain ⟨jh1, jh2⟩ := mergeEntries_conforms sub tds ms hms
                                refine ⟨by simp [ih1], ?_⟩
                                simp [conformsEntries, conformsTo, ih2, jh2, jh1]
              · rw [if_neg hd] at h
                cases hev : pyGet e k with
                | error err => rw [hev] at h; cases h
                | ok ev =>
                    rw [hev] at h
                    simp only [Except.bind] at h
                    cases hr : mergeEntries e rest with
                    | error err => rw [hr] at h; cases h
                    | ok rs2 =>
                        rw [hr] at h
                        simp only [Except.bind, pure, Except.pure] at h
                        injection h with h2
                        subst h2
                        obtain ⟨ih1, ih2⟩ := mergeEntries_conforms e rest rs2 hr
                        exact ⟨by simp [ih1], by simp [conformsEntries, hd, ih2]⟩
  termination_by e ts rs h => sizeOf ts

/-- On a dict input whose nested values are dicts wherever the template
nests (and the key is present), the entry walk never raises. -/
theorem mergeEntries_ok : ∀ (es ts : List (String × PyVal)),
    goodShapeEntries es ts = true → (mergeEntries (.vdict es) ts).isOk = true
  | es, [], _ => by simp [mergeEntries, Except.isOk, Except.toBool]
  | es, (k, tv) :: rest, hg => by
      simp only [goodShapeEntries, Bool.and_eq_true] at hg
      obtain ⟨hg1, hg2⟩ := hg
      have ihrest := mergeEntries_ok es rest hg2
      obtain ⟨rs2, hrs2⟩ := exists_ok ihrest
      simp only [mergeEntries, Bind.bind, pyContains, Except.bind]
      by_cases hc : es.any (fun e2 => e2.1 == k) = true
      · rw [hc]
        simp only [if_true]
        by_cases hd : isDict tv
        · rw [if_pos hd]
          obtain ⟨tds, rfl⟩ := isDict_true hd
          obtain ⟨sub, hsub⟩ := dictGet?_isSome_of_any hc
          simp only [isDict, if_true] at hg1
          rw [hsub] at hg1
          simp only [pyGetD, Except.bind, hsub, Option.getD_some]
          obtain ⟨es2, rfl⟩ : ∃ es2, sub = .vdict es2 := by
            cases sub <;> first
              | exact ⟨_, rfl⟩
              | exact absurd hg1 (by simp [goodShape])
          have hsubok := mergeEntries_ok es2 tds (by simpa [goodShape] using hg1)
          obtain ⟨ms, hms⟩ := exists_ok hsubok
          simp only [mergeWithTemplate, Bind.bind, hms, Except.bind, hrs2, pure, Except.pure,
            Except.isOk, Except.toBool]
        · rw [if_neg hd]
          simp only [pyGet, Except.bind, hrs2, pure, Except.pure, Except.isOk, Except.toBool]
      · have hc2 : (es.any (fun e2 => e2.1 == k)) = false := by simp [hc]
        rw [hc2]
        simp only [Bool.false_eq_true, if_false, hrs2, Except.bind, pure, Except.pure,
          Except.isOk, Except.toBool]
  termination_by es ts hg => sizeOf ts

/-- Leaf coercion of the merger always yields strings at every leaf. -/
theorem mergeEntries_strings : ∀ (e : PyVal) (ts rs : List (String × PyVal)),
    allStringLeavesEntries ts = true → mergeEntries e ts = .ok rs →
    allStringLeavesEntries rs = true
  | e, [], rs, _, h => by
      simp only [mergeEntries] at h
      injection h with h2
      subst h2
      rfl
  | e, (k, tv) :: rest, rs, ht, h => by
      simp only [allStringLeavesEntries, Bool.and_eq_true] at ht
      obtain ⟨ht1, ht2⟩ := ht
      simp only [mergeEntries, Bind.bind] at h
      cases hc : pyContains e k with
      | error err => rw [hc] at h; cases h
      | ok c =>
          rw [hc] at h
          simp only [Except.bind] at h
          cases c with
          | false =>
              simp only [Bool.false_eq_true, if_false] at h
              cases hr : mergeEntries e rest with
              | error err => rw [hr] at h; cases h
              | ok rs2 =>
                  rw [hr] at h
                  simp only [Except.bind, pure, Except.pure] at h
                  injection h with h2
                  subst h2
                  simp [allStringLeavesEntries, ht1, mergeEntries_strings e rest rs2 ht2 hr]
          | true =>
              simp only [if_true] at h
              by_cases hd : isDict tv
              · rw [if_pos hd] at h
                obtain ⟨tds, rfl⟩ := isDict_true hd
                cases hsub : pyGetD e k (.vdict []) with
                | error err => rw [hsub] at h; cases h
                | ok sub =>
                    rw [hsub] at h
                    simp only [Except.bind] at h
                    cases hm : mergeWithTemplate sub (.vdict tds) with
                    | error err => rw [hm] at h; cases h
                    | ok m =>
                        rw [hm] at h
                        simp only [Except.bind] at h
                        cases hr : mergeEntries e rest with
                        | error err => rw [hr] at h; cases h
                        | ok rs2 =>
                            rw [hr] at h
                            simp only [Except.bind, pure, Except.pure] at h
                            injection h with h2
                            subst h2
                            simp only [mergeWithTemplate, Bind.bind] at hm
                            cases hms : mergeEntries sub tds with
                            | error err => rw [hms] at hm; cases hm
                            | ok ms =>
                                rw [hms] at hm
                                simp only [Except.bind, pure, Except.pure] at hm
                                injection hm with hm2
                                subst hm2
                                have jh := mergeEntries_strings sub tds ms
                                  (by simpa [allStringLeaves] using ht1) hms
                                simp [allStringLeavesEntries, allStringLeaves, jh,
                                  mergeEntries_strings e rest rs2 ht2 hr]
              · rw [if_neg hd] at h
                cases hev : pyGet e k with
                | error err => rw [hev] at h; cases h
                | ok ev =>
                    rw [hev] at h
                    simp only [Except.bind] at h
                    cases hr : mergeEntries e rest with
                    | error err => rw [hr] at h; cases h
                    | ok rs2 =>
                        rw [hr] at h
                        simp only [Except.bind, pure, Except.pure] at h
                        injection h with h2
                        subst h2
                        simp only [allStringLeavesEntries, Bool.and_eq_true]
                        refine ⟨?_, mergeEntries_strings e rest rs2 ht2 hr⟩
                        split <;> rfl
  termination_by e ts rs ht h => sizeOf ts

/-- C1 (counterexample): the merger is not total — a string input triggers
the substring semantics of Python `in` and then raises `AttributeError` on
`.get`, and a dict whose `dateOfBirth` is `null` raises `TypeError` when the
recursion evaluates `'day' in None`. -/
theorem merge_not_total_cex :
    (ensureSchemaCompliance (.vstr "lastName")).isOk = false ∧
    (ensureSchemaCompliance (.vdict [("dateOfBirth", .none)])).isOk = false :=
  ⟨rfl, rfl⟩

/-- C1 (amended): whenever the merge returns at all, its output has exactly
the template's key set at every nesting level, recursively; and the merge is
total (never raises) on every `extracted` that is a mapping whose value, at
each key where the template nests and the key is present, is recursively
such a mapping.  On other inputs (non-mapping roots, or `None`/scalar values
at nested-mapping keys) it can raise, as the counterexample shows. -/
theorem merge_shape_amended :
    (∀ e r, ensureSchemaCompliance e = .ok r → conformsTo r emptyResultV = true) ∧
    (∀ e, goodShape e emptyResultV = true → (ensureSchemaCompliance e).isOk = true) := by
  constructor
  · intro e r h
    simp only [ensureSchemaCompliance, emptyResultV, mergeWithTemplate, Bind.bind] at h
    cases hrs : mergeEntries e templateEntries with
    | error err => rw [hrs] at h; cases h
    | ok rs =>
        rw [hrs] at h
        simp only [Except.bind, pure, Except.pure] at h
        injection h with h2
        subst h2
        obtain ⟨h1, h2⟩ := mergeEntries_conforms e templateEntries rs hrs
        simp [conformsTo, emptyResultV, h1, h2]
  · intro e hg
    obtain ⟨es, rfl⟩ : ∃ es, e = .vdict es := by
      cases e <;> first
        | exact ⟨_, rfl⟩
        | exact absurd hg (by simp [goodShape, emptyResultV])
    have h := mergeEntries_ok es templateEntries (by simpa [goodShape, emptyResultV] using hg)
    obtain ⟨rs, hrs⟩ := exists_ok h
    simp [ensureSchemaCompliance, emptyResultV, mergeWithTemplate, Bind.bind, hrs,
      Except.bind, pure, Except.pure, Except.isOk, Except.toBool]

/-- Witness for C1's amended theorem: both parts applied at concrete
inputs. -/
theorem merge_shape_amended_witness :
    conformsTo emptyResultV emptyResultV = true ∧
    (ensureSchemaCompliance (.vdict [("lastName", .vstr "X")])).isOk = true :=
  ⟨merge_shape_amended.1 (.vdict []) emptyResultV rfl,
   merge_shape_amended.2 (.vdict [("lastName", .vstr "X")]) (by decide)⟩

/-- C6: whenever the merge returns, every leaf of its output is a string;
an extracted `None` and the literal `"null"` both become the empty string,
and any other present leaf value becomes its string representation (here
`7` becomes `"7"`). -/
theorem merge_leaves_strings :
    (∀ e r, ensureSchemaCompliance e = .ok r → allStringLeaves r = true) ∧
    ((ensureSchemaCompliance (.vdict [("lastName", PyVal.none)])).toOption.bind
        (fun r => (pyGet r "lastName").toOption) = some (.vstr "")) ∧
    ((ensureSchemaCompliance (.vdict [("lastName", .vstr "null")])).toOption.bind
        (fun r => (pyGet r "lastName").toOption) = some (.vstr "")) ∧
    ((ensureSchemaCompliance (.vdict [("lastName", .vint 7)])).toOption.bind
        (fun r => (pyGet r "lastName").toOption) = some (.vstr "7")) := by
  refine ⟨?_, rfl, rfl, rfl⟩
  intro e r h
  simp only [ensureSchemaCompliance, emptyResultV, mergeWithTemplate, Bind.bind] at h
  cases hrs : mergeEntries e templateEntries with
  | error err => rw [hrs] at h; cases h
  | ok rs =>
      rw [hrs] at h
      simp only [Except.bind, pure, Except.pure] at h
      injection h with h2
      subst h2
      have := mergeEntries_strings e templateEntries rs (by decide) hrs
      simpa [allStringLeaves] using this

/-- Witness for C6's universally quantified part at a concrete input. -/
theorem merge_leaves_strings_witness :
    allStringLeaves emptyResultV = true :=
  merge_leaves_strings.1 (.vdict []) emptyResultV rfl

/-!
Idempotence of the artifact cleaner (C9).

The proof shows that the output of `cleanOcrArtifacts` contains no further
match of either pattern, is in whitespace-normal form, and is stripped —
so the second pass leaves it unchanged.
-/

/-- Digits are word characters. -/
theorem digit_word {c : Char} (h : isDigitCh c = true) : isWordCh c = true := by
  simp [isWordCh, h]

/-- Whitespace characters are not word characters. -/
theorem ws_not_word {c : Char} (h : isWS c = true) : isWordCh c = false := by
  simp only [isWS, Bool.or_eq_true, decide_eq_true_eq] at h
  rcases h with ((((rfl | rfl) | rfl) | rfl) | rfl) | rfl <;> decide

/-- Whitespace characters are not digits. -/
theorem ws_not_digit {c : Char} (h : isWS c = true) : isDigitCh c = false := by
  simp only [isWS, Bool.or_eq_true, decide_eq_true_eq] at h
  rcases h with ((((rfl | rfl) | rfl) | rfl) | rfl) | rfl <;> decide

/-- Word characters are not whitespace. -/
theorem word_not_ws {c : Char} (h : isWordCh c = true) : isWS c = false := by
  cases hw : isWS c with
  | false => rfl
  | true => rw [ws_not_word hw] at h; cases h

/-- Digits are not whitespace. -/
theorem digit_not_ws {c : Char} (h : isDigitCh c = true) : isWS c = false :=
  word_not_ws (digit_word h)

/-- Whitespace is never the character `8`. -/
theorem ws_ne8 {c : Char} (h : isWS c = true) : c ≠ '8' := by
  intro hc
  subst hc
  simp [isWS] at h

/-- A successful digit grab splits the input. -/
theorem grabDigits_some : ∀ {n : Nat} {s ds rest : List Char},
    grabDigits n s = some (ds, rest) →
    s = ds ++ rest ∧ ds.length = n ∧ ∀ d ∈ ds, isDigitCh d = true := by
  intro n
  induction n with
  | zero =>
      intro s ds rest h
      simp only [grabDigits] at h
      injection h with h2
      injection h2 with ha hb
      subst ha; subst hb
      exact ⟨rfl, rfl, by intro d hd; cases hd⟩
  | succ m ih =>
      intro s ds rest h
      cases s with
      | nil => simp [grabDigits] at h
      | cons c cs =>
          simp only [grabDigits] at h
          by_cases hd : isDigitCh c = true
          · rw [if_pos hd] at h
            cases hg : grabDigits m cs with
            | none => rw [hg] at h; cases h
            | some pr =>
                rw [hg] at h
                obtain ⟨ds2, rest2⟩ := pr
                injection h with h2
                injection h2 with ha hb
                subst ha; subst hb
                obtain ⟨j1, j2, j3⟩ := ih hg
                refine ⟨by rw [j1]; rfl, by simp [j2], ?_⟩
                intro d hdm
                rcases List.mem_cons.mp hdm with rfl | hdm2
                · exact hd
                · exact j3 d hdm2
          · rw [if_neg hd] at h; cases h

/-- Grabbing the exact digit run of an append. -/
theorem grabDigits_append : ∀ {n : Nat} {ds t : List Char},
    ds.length = n → (∀ d ∈ ds, isDigitCh d = true) →
    grabDigits n (ds ++ t) = some (ds, t) := by
  intro n
  induction n with
  | zero =>
      intro ds t hl _
      rw [List.length_eq_zero] at hl
      subst hl
      rfl
  | succ m ih =>
      intro ds t hl hds
      cases ds with
      | nil => cases hl
      | cons d ds2 =>
          have hd : isDigitCh d = true := hds d (List.mem_cons_self d ds2)
          have hl2 : ds2.length = m := by simpa using hl
          have hr := @ih ds2 t hl2 (fun x hx => hds x (List.mem_cons_of_mem d hx))
          simp only [List.cons_append, grabDigits, hd, if_true, List.append_eq, hr]

/-- Pattern 1 never matches after a word character. -/
theorem matchP1_prevw (s : List Char) : matchP1 true s = none := rfl

/-- Pattern 2 never matches after a word character. -/
theorem matchP2_prevw (s : List Char) : matchP2 true s = none := rfl

/-- Pattern 1 requires `8` as its first character. -/
theorem matchP1_not8 {c : Char} (p : Bool) (cs : List Char) (h : c ≠ '8') :
    matchP1 p (c :: cs) = none := by
  cases p with
  | true => rfl
  | false => cases cs with
    | nil => rfl
    | cons c2 cs2 => simp [matchP1, h]

/-- Pattern 2 requires `8` as its first character. -/
theorem matchP2_not8 {c : Char} (p : Bool) (cs : List Char) (h : c ≠ '8') :
    matchP2 p (c :: cs) = none := by
  cases p with
  | true => rfl
  | false => simp [matchP2, h]

/-- Structure of a pattern-1 match. -/
theorem matchP1_some_decomp {p : Bool} {s ds rest : List Char}
    (h : matchP1 p s = some (ds, rest)) :
    p = false ∧ s = '8' :: '5' :: (ds ++ rest) ∧ ds.length = 8 ∧
      (∀ d ∈ ds, isDigitCh d = true) ∧ boundaryAfter rest = true := by
  cases p with
  | true => cases h
  | false =>
      cases s with
      | nil => cases h
      | cons c1 t1 =>
          cases t1 with
          | nil => cases h
          | cons c2 t =>
              simp only [matchP1, if_false, Bool.false_eq_true] at h
              by_cases h1 : c1 = '8'
              · rw [if_pos h1] at h
                by_cases h2 : c2 = '5'
                · rw [if_pos h2] at h
                  cases hg : grabDigits 8 t with
                  | none => rw [hg] at h; cases h
                  | some pr =>
                      obtain ⟨ds2, rest2⟩ := pr
                      simp only [hg] at h
                      by_cases hb : boundaryAfter rest2 = true
                      · rw [if_pos hb] at h
                        injection h with h3
                        injection h3 with ha hbb
                        subst ha; subst hbb; subst h1; subst h2
                        obtain ⟨j1, j2, j3⟩ := grabDigits_some hg
                        exact ⟨rfl, by rw [j1], j2, j3, hb⟩
                      · rw [if_neg hb] at h; cases h
                · rw [if_neg h2] at h; cases h
              · rw [if_neg h1] at h; cases h

/-- Structure of a pattern-2 match. -/
theorem matchP2_some_decomp {p : Bool} {s ds rest : List Char}
    (h : matchP2 p s = some (ds, rest)) :
    p = false ∧ (∃ ws, s = '8' :: (ws ++ '5' :: (ds ++ rest)) ∧
      (∀ x ∈ ws, isWS x = true)) ∧ ds.length = 8 ∧
      (∀ d ∈ ds, isDigitCh d = true) ∧ boundaryAfter rest = true := by
  cases p with
  | true => cases h
  | false =>
      cases s with
      | nil => cases h
      | cons c1 t =>
          simp only [matchP2, if_false, Bool.false_eq_true] at h
          by_cases h1 : c1 = '8'
          · rw [if_pos h1] at h
            cases ht : t.dropWhile isWS with
            | nil => rw [ht] at h; cases h
            | cons c2 u =>
                simp only [ht] at h
                by_cases h2 : c2 = '5'
                · rw [if_pos h2] at h
                  cases hg : grabDigits 8 u with
                  | none => rw [hg] at h; cases h
                  | some pr =>
                      obtain ⟨ds2, rest2⟩ := pr
                      simp only [hg] at h
                      by_cases hb : boundaryAfter rest2 = true
                      · rw [if_pos hb] at h
                        injection h with h3
                        injection h3 with ha hbb
                        subst ha; subst hbb; subst h1; subst h2
                        obtain ⟨j1, j2, j3⟩ := grabDigits_some hg
                        refine ⟨rfl, ⟨t.takeWhile isWS, ?_, ?_⟩, j2, j3, hb⟩
                        · rw [← j1, ← ht, List.takeWhile_append_dropWhile]
                        · intro x hx
                          exact List.mem_takeWhile_imp hx
                      · rw [if_neg hb] at h; cases h
                · rw [if_neg h2] at h; cases h
          · rw [if_neg h1] at h; cases h

/-- Dropping whitespace walks through an all-whitespace prefix. -/
theorem dropWhile_ws_append {w : List Char} (u : List Char)
    (hw : ∀ x ∈ w, isWS x = true) :
    (w ++ u).dropWhile isWS = u.dropWhile isWS := by
  induction w with
  | nil => rfl
  | cons a w' ih =>
      have ha : isWS a = true := hw a (List.mem_cons_self a w')
      simp only [List.cons_append, List.dropWhile_cons_of_pos ha]
      exact ih (fun x hx => hw x (List.mem_cons_of_mem a hx))

/-- Reassemble a pattern-1 match. -/
theorem matchP1_build {ds rest : List Char} (hl : ds.length = 8)
    (hds : ∀ d ∈ ds, isDigitCh d = true) (hb : boundaryAfter rest = true) :
    matchP1 false ('8' :: '5' :: (ds ++ rest)) = some (ds, rest) := by
  simp [matchP1, grabDigits_append hl hds, hb]

/-- Reassemble a pattern-2 match. -/
theorem matchP2_build {ws ds rest : List Char} (hw : ∀ x ∈ ws, isWS x = true)
    (hl : ds.length = 8) (hds : ∀ d ∈ ds, isDigitCh d = true)
    (hb : boundaryAfter rest = true) :
    matchP2 false ('8' :: (ws ++ '5' :: (ds ++ rest))) = some (ds, rest) := by
  have h1 : (ws ++ '5' :: (ds ++ rest)).dropWhile isWS = '5' :: (ds ++ rest) := by
    rw [dropWhile_ws_append _ hw]
    exact List.dropWhile_cons_of_neg (by decide)
  simp [matchP2, h1, grabDigits_append hl hds, hb]

/-- A pattern-1 match consumes exactly ten characters. -/
theorem matchP1_some_length {p : Bool} {s ds rest : List Char}
    (h : matchP1 p s = some (ds, rest)) : s.length = rest.length + 10 := by
  obtain ⟨_, hs, hl, _, _⟩ := matchP1_some_decomp h
  subst hs
  simp [List.length_append, hl]
  omega

/-- A pattern-2 match consumes at least ten characters. -/
theorem matchP2_some_length {p : Bool} {s ds rest : List Char}
    (h : matchP2 p s = some (ds, rest)) : rest.length < s.length := by
  obtain ⟨_, ⟨ws, hs, _⟩, hl, _, _⟩ := matchP2_some_decomp h
  subst hs
  simp [List.length_append, hl]
  omega

/-- Neither pattern matches the empty string. -/
theorem matchP1_nil (p : Bool) : matchP1 p [] = none := by cases p <;> rfl

theorem matchP2_nil (p : Bool) : matchP2 p [] = none := by cases p <;> rfl

theorem subP1F_nil (f : Nat) (p : Bool) : subP1F f p [] = [] := by
  cases f with
  | zero => rfl
  | succ g => simp [subP1F, matchP1_nil]

theorem subP2F_nil (f : Nat) (p : Bool) : subP2F f p [] = [] := by
  cases f with
  | zero => rfl
  | succ g => simp [subP2F, matchP2_nil]

/-- The fuel of `subP1F` is irrelevant once it covers the input length. -/
theorem subP1F_irrel : ∀ (f1 f2 : Nat) (p : Bool) (s : List Char),
    s.length ≤ f1 → s.length ≤ f2 → subP1F f1 p s = subP1F f2 p s := by
  intro f1
  induction f1 with
  | zero =>
      intro f2 p s h1 _
      have hs : s = [] := List.eq_nil_of_length_eq_zero (Nat.le_zero.mp h1)
      subst hs
      rw [subP1F_nil, subP1F_nil]
  | succ g ih =>
      intro f2 p s h1 h2
      cases s with
      | nil => rw [subP1F_nil, subP1F_nil]
      | cons c cs =>
          cases f2 with
          | zero => simp at h2
          | succ g2 =>
              simp only [subP1F]
              cases hm : matchP1 p (c :: cs) with
              | some pr =>
                  obtain ⟨ds, rest⟩ := pr
                  have hlen := matchP1_some_length hm
                  simp only [List.length_cons] at h1 h2 hlen
                  show '0' :: '5' :: (ds ++ subP1F g true rest) =
                    '0' :: '5' :: (ds ++ subP1F g2 true rest)
                  rw [ih g2 true rest (by omega) (by omega)]
              | none =>
                  simp only [List.length_cons] at h1 h2
                  show c :: subP1F g (isWordCh c) cs = c :: subP1F g2 (isWordCh c) cs
                  rw [ih g2 (isWordCh c) cs (by omega) (by omega)]

/-- The fuel of `subP2F` is irrelevant once it covers the input length. -/
theorem subP2F_irrel : ∀ (f1 f2 : Nat) (p : Bool) (s : List Char),
    s.length ≤ f1 → s.length ≤ f2 → subP2F f1 p s = subP2F f2 p s := by
  intro f1
  induction f1 with
  | zero =>
      intro f2 p s h1 _
      have hs : s = [] := List.eq_nil_of_length_eq_zero (Nat.le_zero.mp h1)
      subst hs
      rw [subP2F_nil, subP2F_nil]
  | succ g ih =>
      intro f2 p s h1 h2
      cases s with
      | nil => rw [subP2F_nil, subP2F_nil]
      | cons c cs =>
          cases f2 with
          | zero => simp at h2
          | succ g2 =>
              simp only [subP2F]
              cases hm : matchP2 p (c :: cs) with
              | some pr =>
                  obtain ⟨ds, rest⟩ := pr
                  have hlen := matchP2_some_length hm
                  simp only [List.length_cons] at h1 h2 hlen
                  show '0' :: '5' :: (ds ++ subP2F g true rest) =
                    '0' :: '5' :: (ds ++ subP2F g2 true rest)
                  rw [ih g2 true rest (by omega) (by omega)]
              | none =>
                  simp only [List.length_cons] at h1 h2
                  show c :: subP2F g (isWordCh c) cs = c :: subP2F g2 (isWordCh c) cs
                  rw [ih g2 (isWordCh c) cs (by omega) (by omega)]

/-- One scanning step of `subP1`. -/
theorem subP1_step (p : Bool) (s : List Char) :
    subP1 p s =
      match matchP1 p s with
      | some (ds, rest) => '0' :: '5' :: (ds ++ subP1 true rest)
      | none =>
          match s with
          | [] => []
          | c :: cs => c :: subP1 (isWordCh c) cs := by
  unfold subP1
  cases s with
  | nil => simp [subP1F_nil, matchP1_nil]
  | cons c cs =>
      simp only [List.length_cons, subP1F]
      cases hm : matchP1 p (c :: cs) with
      | some pr =>
          obtain ⟨ds, rest⟩ := pr
          have hlen := matchP1_some_length hm
          simp only [List.length_cons] at hlen
          show '0' :: '5' :: (ds ++ subP1F cs.length true rest) =
            '0' :: '5' :: (ds ++ subP1F rest.length true rest)
          rw [subP1F_irrel cs.length rest.length true rest (by omega) (Nat.le_refl _)]
      | none =>
          show c :: subP1F cs.length (isWordCh c) cs = c :: subP1F cs.length (isWordCh c) cs
          rfl

/-- One scanning step of `subP2`. -/
theorem subP2_step (p : Bool) (s : List Char) :
    subP2 p s =
      match matchP2 p s with
      | some (ds, rest) => '0' :: '5' :: (ds ++ subP2 true rest)
      | none =>
          match s with
          | [] => []
          | c :: cs => c :: subP2 (isWordCh c) cs := by
  unfold subP2
  cases s with
  | nil => simp [subP2F_nil, matchP2_nil]
  | cons c cs =>
      simp only [List.length_cons, subP2F]
      cases hm : matchP2 p (c :: cs) with
      | some pr =>
          obtain ⟨ds, rest⟩ := pr
          have hlen := matchP2_some_length hm
          simp only [List.length_cons] at hlen
          show '0' :: '5' :: (ds ++ subP2F cs.length true rest) =
            '0' :: '5' :: (ds ++ subP2F rest.length true rest)
          rw [subP2F_irrel cs.length rest.length true rest (by omega) (Nat.le_refl _)]
      | none =>
          show c :: subP2F cs.length (isWordCh c) cs = c :: subP2F cs.length (isWordCh c) cs
          rfl

theorem subP1_matchstep {p : Bool} {s ds rest : List Char}
    (h : matchP1 p s = some (ds, rest)) :
    subP1 p s = '0' :: '5' :: (ds ++ subP1 true rest) := by
  rw [subP1_step, h]

theorem subP1_copy {p : Bool} {c : Char} {cs : List Char}
    (h : matchP1 p (c :: cs) = none) :
    subP1 p (c :: cs) = c :: subP1 (isWordCh c) cs := by
  rw [subP1_step, h]

theorem subP2_matchstep {p : Bool} {s ds rest : List Char}
    (h : matchP2 p s = some (ds, rest)) :
    subP2 p s = '0' :: '5' :: (ds ++ subP2 true rest) := by
  rw [subP2_step, h]

theorem subP2_copy {p : Bool} {c : Char} {cs : List Char}
    (h : matchP2 p (c :: cs) = none) :
    subP2 p (c :: cs) = c :: subP2 (isWordCh c) cs := by
  rw [subP2_step, h]

/-- After a word character neither pattern can start, so `subP1` copies. -/
theorem subP1_true_cons (c : Char) (cs : List Char) :
    subP1 true (c :: cs) = c :: subP1 (isWordCh c) cs :=
  subP1_copy (matchP1_prevw _)

/-- After a word character neither pattern can start, so `subP2` copies. -/
theorem subP2_true_cons (c : Char) (cs : List Char) :
    subP2 true (c :: cs) = c :: subP2 (isWordCh c) cs :=
  subP2_copy (matchP2_prevw _)

/-- `dropWhile` never lengthens a list. -/
theorem dropWhile_len_le (p : Char → Bool) : ∀ s : List Char,
    (s.dropWhile p).length ≤ s.length := by
  intro s
  induction s with
  | nil => exact Nat.le_refl 0
  | cons c cs ih =>
      by_cases hc : p c = true
      · rw [List.dropWhile_cons_of_pos hc]
        exact Nat.le_succ_of_le ih
      · rw [List.dropWhile_cons_of_neg (by simp [hc])]

/-- The fuel of `collapseF` is irrelevant once it covers the input length. -/
theorem collapseF_irrel : ∀ (f1 f2 : Nat) (s : List Char),
    s.length ≤ f1 → s.length ≤ f2 → collapseF f1 s = collapseF f2 s := by
  intro f1
  induction f1 with
  | zero =>
      intro f2 s h1 _
      have hs : s = [] := List.eq_nil_of_length_eq_zero (Nat.le_zero.mp h1)
      subst hs
      cases f2 <;> rfl
  | succ g ih =>
      intro f2 s h1 h2
      cases s with
      | nil => cases f2 <;> rfl
      | cons c cs =>
          cases f2 with
          | zero => simp at h2
          | succ g2 =>
              simp only [collapseF, List.length_cons] at h1 h2 ⊢
              by_cases hc : isWS c = true
              · rw [if_pos hc, if_pos hc]
                have hd := dropWhile_len_le isWS cs
                rw [ih g2 (cs.dropWhile isWS) (by omega) (by omega)]
              · rw [if_neg hc, if_neg hc]
                rw [ih g2 cs (by omega) (by omega)]

/-- One step of `collapse`. -/
theorem collapse_step (s : List Char) :
    collapse s =
      match s with
      | [] => []
      | c :: cs =>
          if isWS c then ' ' :: collapse (cs.dropWhile isWS) else c :: collapse cs := by
  unfold collapse
  cases s with
  | nil => rfl
  | cons c cs =>
      simp only [List.length_cons, collapseF]
      by_cases hc : isWS c = true
      · rw [if_pos hc, if_pos hc]
        have hd := dropWhile_len_le isWS cs
        rw [collapseF_irrel cs.length (cs.dropWhile isWS).length (cs.dropWhile isWS)
          (by omega) (Nat.le_refl _)]
      · rw [if_neg hc, if_neg hc]

theorem collapse_ws {c : Char} {cs : List Char} (h : isWS c = true) :
    collapse (c :: cs) = ' ' :: collapse (cs.dropWhile isWS) := by
  rw [collapse_step]
  show (if isWS c = true then ' ' :: collapse (cs.dropWhile isWS) else c :: collapse cs) =
    ' ' :: collapse (cs.dropWhile isWS)
  rw [if_pos h]

theorem collapse_copy {c : Char} {cs : List Char} (h : isWS c = false) :
    collapse (c :: cs) = c :: collapse cs := by
  rw [collapse_step]
  show (if isWS c = true then ' ' :: collapse (cs.dropWhile isWS) else c :: collapse cs) =
    c :: collapse cs
  rw [if_neg (by simp [h])]

theorem subP1_nil2 (p : Bool) : subP1 p [] = [] := rfl

theorem subP2_nil2 (p : Bool) : subP2 p [] = [] := rfl

theorem collapse_nil : collapse [] = [] := rfl

/-- `subP1` copies a digit run scanned with word-class `true`. -/
theorem subP1_grab_some : ∀ {n : Nat} {s ds rest : List Char},
    grabDigits n s = some (ds, rest) → subP1 true s = ds ++ subP1 true rest := by
  intro n
  induction n with
  | zero =>
      intro s ds rest h
      simp only [grabDigits] at h
      injection h with h2
      injection h2 with ha hb
      subst ha; subst hb
      rfl
  | succ m ih =>
      intro s ds rest h
      cases s with
      | nil => simp [grabDigits] at h
      | cons c cs =>
          simp only [grabDigits] at h
          by_cases hd : isDigitCh c = true
          · rw [if_pos hd] at h
            cases hg : grabDigits m cs with
            | none => rw [hg] at h; cases h
            | some pr =>
                obtain ⟨ds2, rest2⟩ := pr
                simp only [hg] at h
                injection h with h2
                injection h2 with ha hb
                subst ha; subst hb
                rw [subP1_true_cons, digit_word hd, ih hg]
                rfl
          · rw [if_neg hd] at h; cases h

/-- `subP1` cannot create a digit run where none was. -/
theorem subP1_grab_none : ∀ {n : Nat} {s : List Char}, grabDigits n s = none →
    grabDigits n (subP1 true s) = none := by
  intro n
  induction n with
  | zero => intro s h; cases h
  | succ m ih =>
      intro s h
      cases s with
      | nil => rfl
      | cons c cs =>
          rw [subP1_true_cons]
          simp only [grabDigits] at h ⊢
          by_cases hd : isDigitCh c = true
          · rw [if_pos hd] at h
            cases hg : grabDigits m cs with
            | some pr => simp only [hg] at h; cases h
            | none =>
                rw [if_pos hd, digit_word hd, ih hg]
          · rw [if_neg hd] at h ⊢

/-- `subP2` copies a digit run scanned with word-class `true`. -/
theorem subP2_grab_some : ∀ {n : Nat} {s ds rest : List Char},
    grabDigits n s = some (ds, rest) → subP2 true s = ds ++ subP2 true rest := by
  intro n
  induction n with
  | zero =>
      intro s ds rest h
      simp only [grabDigits] at h
      injection h with h2
      injection h2 with ha hb
      subst ha; subst hb
      rfl
  | succ m ih =>
      intro s ds rest h
      cases s with
      | nil => simp [grabDigits] at h
      | cons c cs =>
          simp only [grabDigits] at h
          by_cases hd : isDigitCh c = true
          · rw [if_pos hd] at h
            cases hg : grabDigits m cs with
            | none => rw [hg] at h; cases h
            | some pr =>
                obtain ⟨ds2, rest2⟩ := pr
                simp only [hg] at h
                injection h with h2
                injection h2 with ha hb
                subst ha; subst hb
                rw [subP2_true_cons, digit_word hd, ih hg]
                rfl
          · rw [if_neg hd] at h; cases h

/-- `subP2` cannot create a digit run where none was. -/
theorem subP2_grab_none : ∀ {n : Nat} {s : List Char}, grabDigits n s = none →
    grabDigits n (subP2 true s) = none := by
  intro n
  induction n with
  | zero => intro s h; cases h
  | succ m ih =>
      intro s h
      cases s with
      | nil => rfl
      | cons c cs =>
          rw [subP2_true_cons]
          simp only [grabDigits] at h ⊢
          by_cases hd : isDigitCh c = true
          · rw [if_pos hd] at h
            cases hg : grabDigits m cs with
            | some pr => simp only [hg] at h; cases h
            | none =>
                rw [if_pos hd, digit_word hd, ih hg]
          · rw [if_neg hd] at h ⊢

/-- `collapse` copies a digit run. -/
theorem collapse_grab_some : ∀ {n : Nat} {s ds rest : List Char},
    grabDigits n s = some (ds, rest) → collapse s = ds ++ collapse rest := by
  intro n
  induction n with
  | zero =>
      intro s ds rest h
      simp only [grabDigits] at h
      injection h with h2
      injection h2 with ha hb
      subst ha; subst hb
      rfl
  | succ m ih =>
      intro s ds rest h
      cases s with
      | nil => simp [grabDigits] at h
      | cons c cs =>
          simp only [grabDigits] at h
          by_cases hd : isDigitCh c = true
          · rw [if_pos hd] at h
            cases hg : grabDigits m cs with
            | none => rw [hg] at h; cases h
            | some pr =>
                obtain ⟨ds2, rest2⟩ := pr
                simp only [hg] at h
                injection h with h2
                injection h2 with ha hb
                subst ha; subst hb
                rw [collapse_copy (digit_not_ws hd), ih hg]
                rfl
          · rw [if_neg hd] at h; cases h

/-- `collapse` cannot create a digit run where none was. -/
theorem collapse_grab_none : ∀ {n : Nat} {s : List Char}, grabDigits n s = none →
    grabDigits n (collapse s) = none := by
  intro n
  induction n with
  | zero => intro s h; cases h
  | succ m ih =>
      intro s h
      cases s with
      | nil => rfl
      | cons c cs =>
          by_cases hws : isWS c = true
          · rw [collapse_ws hws]
            simp [grabDigits, ws_not_digit (show isWS ' ' = true by decide)]
          · rw [collapse_copy (by simp [hws] : isWS c = false)]
            simp only [grabDigits] at h ⊢
            by_cases hd : isDigitCh c = true
            · rw [if_pos hd] at h
              cases hg : grabDigits m cs with
              | some pr => simp only [hg] at h; cases h
              | none => rw [if_pos hd, ih hg]
            · rw [if_neg hd] at h ⊢

/-- The boundary class after a scan with word-class `true` is unchanged. -/
theorem boundary_subP1 (r : List Char) :
    boundaryAfter (subP1 true r) = boundaryAfter r := by
  cases r with
  | nil => rfl
  | cons c cs => rw [subP1_true_cons]; rfl

theorem boundary_subP2 (r : List Char) :
    boundaryAfter (subP2 true r) = boundaryAfter r := by
  cases r with
  | nil => rfl
  | cons c cs => rw [subP2_true_cons]; rfl

theorem boundary_collapse (r : List Char) :
    boundaryAfter (collapse r) = boundaryAfter r := by
  cases r with
  | nil => rfl
  | cons c cs =>
      by_cases hws : isWS c = true
      · rw [collapse_ws hws]
        show (!isWordCh ' ') = !isWordCh c
        rw [ws_not_word hws, ws_not_word (show isWS ' ' = true by decide)]
      · rw [collapse_copy (by simp [hws])]; rfl

/-- `subP2` scanning with word-class `false` copies a whitespace run. -/
theorem subP2_ws_copy {w : List Char} (u : List Char)
    (hw : ∀ x ∈ w, isWS x = true) :
    subP2 false (w ++ u) = w ++ subP2 false u := by
  induction w with
  | nil => rfl
  | cons a w' ih =>
      have ha : isWS a = true := hw a (List.mem_cons_self a w')
      rw [List.cons_append, subP2_copy (matchP2_not8 false _ (ws_ne8 ha)), ws_not_word ha]
      rw [ih (fun x hx => hw x (List.mem_cons_of_mem a hx))]; rfl

/-- The head surviving `dropWhile isWS` is not whitespace. -/
theorem dropWhile_head : ∀ {u0 : Char} {u2 : List Char} {s : List Char},
    s.dropWhile isWS = u0 :: u2 → isWS u0 = false := by
  intro u0 u2 s h
  induction s with
  | nil => cases h
  | cons c cs2 ih =>
      by_cases hc : isWS c = true
      · rw [List.dropWhile_cons_of_pos hc] at h
        exact ih h
      · rw [List.dropWhile_cons_of_neg (by simp [hc])] at h
        injection h with ha _
        subst ha
        simp [hc]

/-- Pattern 1 fails when the digit window is broken. -/
theorem matchP1_window {cs2 : List Char}
    (h : ∀ ds rest, grabDigits 8 cs2 = some (ds, rest) → boundaryAfter rest = false) :
    matchP1 false ('8' :: '5' :: cs2) = none := by
  cases hg : grabDigits 8 cs2 with
  | none => simp [matchP1, hg]
  | some pr =>
      obtain ⟨ds, rest⟩ := pr
      simp [matchP1, hg, h ds rest hg]

/-- A failed pattern-1 attempt with a full digit run means the boundary failed. -/
theorem matchP1_window_extract {cs2 ds rest : List Char}
    (h : matchP1 false ('8' :: '5' :: cs2) = none)
    (hg : grabDigits 8 cs2 = some (ds, rest)) : boundaryAfter rest = false := by
  obtain ⟨he, hl, hds⟩ := grabDigits_some hg
  cases hbv : boundaryAfter rest with
  | false => rfl
  | true =>
      rw [he, matchP1_build hl hds hbv] at h
      cases h

/-- Pattern 2 fails when the post-whitespace digit window is broken. -/
theorem matchP2_window {z : List Char}
    (h : ∀ u, z.dropWhile isWS = '5' :: u →
      ∀ ds rest, grabDigits 8 u = some (ds, rest) → boundaryAfter rest = false) :
    matchP2 false ('8' :: z) = none := by
  cases hd : z.dropWhile isWS with
  | nil => simp [matchP2, hd]
  | cons c2 u =>
      by_cases h5 : c2 = '5'
      · subst h5
        cases hg : grabDigits 8 u with
        | none => simp [matchP2, hd, hg]
        | some pr =>
            obtain ⟨ds, rest⟩ := pr
            simp [matchP2, hd, hg, h u hd ds rest hg]
      · simp [matchP2, hd, h5]

/-- A failed pattern-2 attempt with a full digit run means the boundary failed. -/
theorem matchP2_window_extract {z u ds rest : List Char}
    (h : matchP2 false ('8' :: z) = none)
    (hd : z.dropWhile isWS = '5' :: u)
    (hg : grabDigits 8 u = some (ds, rest)) : boundaryAfter rest = false := by
  obtain ⟨he, hl, hds⟩ := grabDigits_some hg
  cases hbv : boundaryAfter rest with
  | false => rfl
  | true =>
      have hz : z = z.takeWhile isWS ++ '5' :: (ds ++ rest) := by
        rw [← he, ← hd, List.takeWhile_append_dropWhile]
      have hw : ∀ x ∈ z.takeWhile isWS, isWS x = true :=
        fun x hx => List.mem_takeWhile_imp hx
      rw [hz, matchP2_build hw hl hds hbv] at h
      cases h

/-- Scanning the tail with `subP1` cannot create a pattern-1 match. -/
theorem matchP1_none_subP1 {p : Bool} {c : Char} {cs : List Char}
    (h : matchP1 p (c :: cs) = none) :
    matchP1 p (c :: subP1 (isWordCh c) cs) = none := by
  cases p with
  | true => exact matchP1_prevw _
  | false =>
      by_cases h8 : c = '8'
      · subst h8
        rw [show isWordCh '8' = true from by decide]
        cases cs with
        | nil => rfl
        | cons c2 cs2 =>
            rw [subP1_true_cons]
            by_cases h5 : c2 = '5'
            · subst h5
              rw [show isWordCh '5' = true from by decide]
              refine matchP1_window ?_
              intro ds rest hg
              cases hg0 : grabDigits 8 cs2 with
              | none => rw [subP1_grab_none hg0] at hg; cases hg
              | some pr =>
                  obtain ⟨ds0, rest0⟩ := pr
                  obtain ⟨he0, hl0, hds0⟩ := grabDigits_some hg0
                  rw [subP1_grab_some hg0, grabDigits_append hl0 hds0] at hg
                  injection hg with hg2
                  injection hg2 with ha hb
                  subst ha; subst hb
                  rw [boundary_subP1]
                  exact matchP1_window_extract h hg0
            · simp [matchP1, h5]
      · exact matchP1_not8 _ _ h8

/-- Scanning the tail with `subP2` cannot create a pattern-1 match. -/
theorem matchP1_none_subP2 {p : Bool} {c : Char} {cs : List Char}
    (h : matchP1 p (c :: cs) = none) :
    matchP1 p (c :: subP2 (isWordCh c) cs) = none := by
  cases p with
  | true => exact matchP1_prevw _
  | false =>
      by_cases h8 : c = '8'
      · subst h8
        rw [show isWordCh '8' = true from by decide]
        cases cs with
        | nil => rfl
        | cons c2 cs2 =>
            rw [subP2_true_cons]
            by_cases h5 : c2 = '5'
            · subst h5
              rw [show isWordCh '5' = true from by decide]
              refine matchP1_window ?_
              intro ds rest hg
              cases hg0 : grabDigits 8 cs2 with
              | none => rw [subP2_grab_none hg0] at hg; cases hg
              | some pr =>
                  obtain ⟨ds0, rest0⟩ := pr
                  obtain ⟨he0, hl0, hds0⟩ := grabDigits_some hg0
                  rw [subP2_grab_some hg0, grabDigits_append hl0 hds0] at hg
                  injection hg with hg2
                  injection hg2 with ha hb
                  subst ha; subst hb
                  rw [boundary_subP2]
                  exact matchP1_window_extract h hg0
            · simp [matchP1, h5]
      · exact matchP1_not8 _ _ h8

/-- Collapsing whitespace in the tail cannot create a pattern-1 match. -/
theorem matchP1_none_collapse {p : Bool} {c : Char} {cs : List Char}
    (h : matchP1 p (c :: cs) = none) :
    matchP1 p (c :: collapse cs) = none := by
  cases p with
  | true => exact matchP1_prevw _
  | false =>
      by_cases h8 : c = '8'
      · subst h8
        cases cs with
        | nil => rfl
        | cons c2 cs2 =>
            by_cases hws : isWS c2 = true
            · rw [collapse_ws hws]
              simp [matchP1]
            · rw [collapse_copy (by simp [hws])]
              by_cases h5 : c2 = '5'
              · subst h5
                refine matchP1_window ?_
                intro ds rest hg
                cases hg0 : grabDigits 8 cs2 with
                | none => rw [collapse_grab_none hg0] at hg; cases hg
                | some pr =>
                    obtain ⟨ds0, rest0⟩ := pr
                    obtain ⟨he0, hl0, hds0⟩ := grabDigits_some hg0
                    rw [collapse_grab_some hg0, grabDigits_append hl0 hds0] at hg
                    injection hg with hg2
                    injection hg2 with ha hb
                    subst ha; subst hb
                    rw [boundary_collapse]
                    exact matchP1_window_extract h hg0
              · simp [matchP1, h5]
      · exact matchP1_not8 _ _ h8

/-- Scanning the tail with `subP2` cannot create a pattern-2 match. -/
theorem matchP2_none_subP2 {p : Bool} {c : Char} {cs : List Char}
    (h : matchP2 p (c :: cs) = none) :
    matchP2 p (c :: subP2 (isWordCh c) cs) = none := by
  cases p with
  | true => exact matchP2_prevw _
  | false =>
      by_cases h8 : c = '8'
      · subst h8
        rw [show isWordCh '8' = true from by decide]
        cases cs with
        | nil => rfl
        | cons c1 cs1 =>
            rw [subP2_true_cons]
            by_cases hws : isWS c1 = true
            · -- leading whitespace run: the scan copies it and works after it
              rw [ws_not_word hws]
              have hsplit : cs1 = cs1.takeWhile isWS ++ cs1.dropWhile isWS :=
                (List.takeWhile_append_dropWhile isWS cs1).symm
              have hwall : ∀ x ∈ cs1.takeWhile isWS, isWS x = true :=
                fun x hx => List.mem_takeWhile_imp hx
              rw [hsplit, subP2_ws_copy _ hwall]
              refine matchP2_window ?_
              intro u' hdw ds rest hg
              rw [show (c1 :: (cs1.takeWhile isWS ++ subP2 false (cs1.dropWhile isWS))) =
                    (c1 :: cs1.takeWhile isWS) ++ subP2 false (cs1.dropWhile isWS) from rfl,
                  dropWhile_ws_append _ (by
                    intro x hx
                    rcases List.mem_cons.mp hx with rfl | hx2
                    · exact hws
                    · exact hwall x hx2)] at hdw
              cases hu : cs1.dropWhile isWS with
              | nil => rw [hu] at hdw; rw [subP2_nil2] at hdw; simp at hdw
              | cons u0 u2 =>
                  have hu0 : isWS u0 = false := dropWhile_head hu
                  rw [hu] at hdw
                  cases hm : matchP2 false (u0 :: u2) with
                  | some pr =>
                      obtain ⟨ds1, rest1⟩ := pr
                      rw [subP2_matchstep hm,
                        List.dropWhile_cons_of_neg (by decide)] at hdw
                      simp at hdw
                  | none =>
                      rw [subP2_copy hm,
                        List.dropWhile_cons_of_neg (by simp [hu0])] at hdw
                      injection hdw with ha hb
                      subst ha
                      rw [show isWordCh '5' = true from by decide] at hb
                      subst hb
                      have hd0 : (c1 :: cs1).dropWhile isWS = '5' :: u2 := by
                        rw [List.dropWhile_cons_of_pos hws, hu]
                      cases hg0 : grabDigits 8 u2 with
                      | none => rw [subP2_grab_none hg0] at hg; cases hg
                      | some pr =>
                          obtain ⟨ds0, rest0⟩ := pr
                          obtain ⟨he0, hl0, hds0⟩ := grabDigits_some hg0
                          rw [subP2_grab_some hg0, grabDigits_append hl0 hds0] at hg
                          injection hg with hg2
                          injection hg2 with ha2 hb2
                          subst ha2; subst hb2
                          rw [boundary_subP2]
                          exact matchP2_window_extract h hd0 hg0
            · -- non-whitespace head after the 8
              refine matchP2_window ?_
              intro u' hdw ds rest hg
              rw [List.dropWhile_cons_of_neg (by simp [hws])] at hdw
              injection hdw with ha hb
              subst ha
              rw [show isWordCh '5' = true from by decide] at hb
              subst hb
              have hd0 : (('5' : Char) :: cs1).dropWhile isWS = '5' :: cs1 :=
                List.dropWhile_cons_of_neg (by decide)
              cases hg0 : grabDigits 8 cs1 with
              | none => rw [subP2_grab_none hg0] at hg; cases hg
              | some pr =>
                  obtain ⟨ds0, rest0⟩ := pr
                  obtain ⟨he0, hl0, hds0⟩ := grabDigits_some hg0
                  rw [subP2_grab_some hg0, grabDigits_append hl0 hds0] at hg
                  injection hg with hg2
                  injection hg2 with ha2 hb2
                  subst ha2; subst hb2
                  rw [boundary_subP2]
                  exact matchP2_window_extract h hd0 hg0
      · exact matchP2_not8 _ _ h8

/-- Collapsing whitespace in the tail cannot create a pattern-2 match. -/
theorem matchP2_none_collapse {p : Bool} {c : Char} {cs : List Char}
    (h : matchP2 p (c :: cs) = none) :
    matchP2 p (c :: collapse cs) = none := by
  cases p with
  | true => exact matchP2_prevw _
  | false =>
      by_cases h8 : c = '8'
      · subst h8
        cases cs with
        | nil => rfl
        | cons c1 cs1 =>
            by_cases hws : isWS c1 = true
            · rw [collapse_ws hws]
              refine matchP2_window ?_
              intro u' hdw ds rest hg
              rw [List.dropWhile_cons_of_pos (show isWS ' ' = true from by decide)] at hdw
              cases hu : cs1.dropWhile isWS with
              | nil => rw [hu] at hdw; rw [collapse_nil] at hdw; simp at hdw
              | cons u0 u2 =>
                  have hu0 : isWS u0 = false := dropWhile_head hu
                  rw [hu, collapse_copy hu0,
                    List.dropWhile_cons_of_neg (by simp [hu0])] at hdw
                  injection hdw with ha hb
                  subst ha
                  subst hb
                  have hd0 : (c1 :: cs1).dropWhile isWS = '5' :: u2 := by
                    rw [List.dropWhile_cons_of_pos hws, hu]
                  cases hg0 : grabDigits 8 u2 with
                  | none => rw [collapse_grab_none hg0] at hg; cases hg
                  | some pr =>
                      obtain ⟨ds0, rest0⟩ := pr
                      obtain ⟨he0, hl0, hds0⟩ := grabDigits_some hg0
                      rw [collapse_grab_some hg0, grabDigits_append hl0 hds0] at hg
                      injection hg with hg2
                      injection hg2 with ha2 hb2
                      subst ha2; subst hb2
                      rw [boundary_collapse]
                      exact matchP2_window_extract h hd0 hg0
            · rw [collapse_copy (by simp [hws])]
              refine matchP2_window ?_
              intro u' hdw ds rest hg
              rw [List.dropWhile_cons_of_neg (by simp [hws])] at hdw
              injection hdw with ha hb
              subst ha
              subst hb
              have hd0 : (('5' : Char) :: cs1).dropWhile isWS = '5' :: cs1 :=
                List.dropWhile_cons_of_neg (by decide)
              cases hg0 : grabDigits 8 cs1 with
              | none => rw [collapse_grab_none hg0] at hg; cases hg
              | some pr =>
                  obtain ⟨ds0, rest0⟩ := pr
                  obtain ⟨he0, hl0, hds0⟩ := grabDigits_some hg0
                  rw [collapse_grab_some hg0, grabDigits_append hl0 hds0] at hg
                  injection hg with hg2
                  injection hg2 with ha2 hb2
                  subst ha2; subst hb2
                  rw [boundary_collapse]
                  exact matchP2_window_extract h hd0 hg0
      · exact matchP2_not8 _ _ h8

theorem hasP1_cons (p : Bool) (c : Char) (cs : List Char) :
    hasP1 p (c :: cs) = ((matchP1 p (c :: cs)).isSome || hasP1 (isWordCh c) cs) := rfl

theorem hasP2_cons (p : Bool) (c : Char) (cs : List Char) :
    hasP2 p (c :: cs) = ((matchP2 p (c :: cs)).isSome || hasP2 (isWordCh c) cs) := rfl

theorem hasP1_head {p : Bool} {c : Char} {cs : List Char}
    (h : hasP1 p (c :: cs) = false) : matchP1 p (c :: cs) = none := by
  cases hm : matchP1 p (c :: cs) with
  | none => rfl
  | some pr => rw [hasP1_cons, hm] at h; simp at h

theorem hasP1_tail {p : Bool} {c : Char} {cs : List Char}
    (h : hasP1 p (c :: cs) = false) : hasP1 (isWordCh c) cs = false := by
  rw [hasP1_cons] at h
  exact (Bool.or_eq_false_iff.mp h).2

theorem hasP2_head {p : Bool} {c : Char} {cs : List Char}
    (h : hasP2 p (c :: cs) = false) : matchP2 p (c :: cs) = none := by
  cases hm : matchP2 p (c :: cs) with
  | none => rfl
  | some pr => rw [hasP2_cons, hm] at h; simp at h

theorem hasP2_tail {p : Bool} {c : Char} {cs : List Char}
    (h : hasP2 p (c :: cs) = false) : hasP2 (isWordCh c) cs = false := by
  rw [hasP2_cons] at h
  exact (Bool.or_eq_false_iff.mp h).2

/-- The scan walks unchanged through word characters with class `true`. -/
theorem hasP1_word_chain {a : List Char} (b : List Char)
    (h : ∀ x ∈ a, isWordCh x = true) : hasP1 true (a ++ b) = hasP1 true b := by
  induction a with
  | nil => rfl
  | cons x a2 ih =>
      simp only [List.cons_append, hasP1_cons, matchP1_prevw, Option.isSome_none,
        Bool.false_or]
      rw [h x (List.mem_cons_self x a2)]
      exact ih (fun y hy => h y (List.mem_cons_of_mem x hy))

theorem hasP2_word_chain {a : List Char} (b : List Char)
    (h : ∀ x ∈ a, isWordCh x = true) : hasP2 true (a ++ b) = hasP2 true b := by
  induction a with
  | nil => rfl
  | cons x a2 ih =>
      simp only [List.cons_append, hasP2_cons, matchP2_prevw, Option.isSome_none,
        Bool.false_or]
      rw [h x (List.mem_cons_self x a2)]
      exact ih (fun y hy => h y (List.mem_cons_of_mem x hy))

/-- The scan walks unchanged through whitespace with class `false`. -/
theorem hasP1_ws_chain {w : List Char} (b : List Char)
    (h : ∀ x ∈ w, isWS x = true) : hasP1 false (w ++ b) = hasP1 false b := by
  induction w with
  | nil => rfl
  | cons x w2 ih =>
      have hx := h x (List.mem_cons_self x w2)
      simp only [List.cons_append, hasP1_cons, matchP1_not8 false _ (ws_ne8 hx),
        Option.isSome_none, Bool.false_or]
      rw [ws_not_word hx]
      exact ih (fun y hy => h y (List.mem_cons_of_mem x hy))

theorem hasP2_ws_chain {w : List Char} (b : List Char)
    (h : ∀ x ∈ w, isWS x = true) : hasP2 false (w ++ b) = hasP2 false b := by
  induction w with
  | nil => rfl
  | cons x w2 ih =>
      have hx := h x (List.mem_cons_self x w2)
      simp only [List.cons_append, hasP2_cons, matchP2_not8 false _ (ws_ne8 hx),
        Option.isSome_none, Bool.false_or]
      rw [ws_not_word hx]
      exact ih (fun y hy => h y (List.mem_cons_of_mem x hy))

/-- A clean scan of an append gives a clean scan of the suffix at some class. -/
theorem hasP1_exists_walk : ∀ (a : List Char) {b : List Char} {p : Bool},
    hasP1 p (a ++ b) = false → ∃ q, hasP1 q b = false := by
  intro a
  induction a with
  | nil => intro b p h; exact ⟨p, h⟩
  | cons c a2 ih => intro b p h; exact ih (hasP1_tail h)

theorem hasP2_exists_walk : ∀ (a : List Char) {b : List Char} {p : Bool},
    hasP2 p (a ++ b) = false → ∃ q, hasP2 q b = false := by
  intro a
  induction a with
  | nil => intro b p h; exact ⟨p, h⟩
  | cons c a2 ih => intro b p h; exact ih (hasP2_tail h)

/-- A pattern-1 match survives appending trailing whitespace. -/
theorem matchP1_extend_ws {p : Bool} {s ds rest w : List Char}
    (h : matchP1 p s = some (ds, rest)) (hw : ∀ x ∈ w, isWS x = true) :
    matchP1 p (s ++ w) = some (ds, rest ++ w) := by
  obtain ⟨hp, hs, hl, hds, hb⟩ := matchP1_some_decomp h
  subst hp; subst hs
  have hb2 : boundaryAfter (rest ++ w) = true := by
    cases rest with
    | nil =>
        cases w with
        | nil => rfl
        | cons x w2 =>
            show (!isWordCh x) = true
            rw [ws_not_word (hw x (List.mem_cons_self x w2))]
            rfl
    | cons r rs => exact hb
  rw [show ('8' :: '5' :: (ds ++ rest)) ++ w = '8' :: '5' :: (ds ++ (rest ++ w)) from by
    simp [List.append_assoc]]
  exact matchP1_build hl hds hb2

/-- A pattern-2 match survives appending trailing whitespace. -/
theorem matchP2_extend_ws {p : Bool} {s ds rest w : List Char}
    (h : matchP2 p s = some (ds, rest)) (hw : ∀ x ∈ w, isWS x = true) :
    matchP2 p (s ++ w) = some (ds, rest ++ w) := by
  obtain ⟨hp, ⟨ws2, hs, hws2⟩, hl, hds, hb⟩ := matchP2_some_decomp h
  subst hp; subst hs
  have hb2 : boundaryAfter (rest ++ w) = true := by
    cases rest with
    | nil =>
        cases w with
        | nil => rfl
        | cons x w2 =>
            show (!isWordCh x) = true
            rw [ws_not_word (hw x (List.mem_cons_self x w2))]
            rfl
    | cons r rs => exact hb
  rw [show ('8' :: (ws2 ++ '5' :: (ds ++ rest))) ++ w =
      '8' :: (ws2 ++ '5' :: (ds ++ (rest ++ w))) from by simp [List.append_assoc]]
  exact matchP2_build hws2 hl hds hb2

/-- Removing a trailing whitespace run cannot create a pattern-1 match. -/
theorem hasP1_ws_suffix {w : List Char} (hw : ∀ x ∈ w, isWS x = true) :
    ∀ (a : List Char) (p : Bool), hasP1 p (a ++ w) = false → hasP1 p a = false := by
  intro a
  induction a with
  | nil => intro p _; rfl
  | cons c a2 ih =>
      intro p h
      have ht : hasP1 (isWordCh c) a2 = false := ih (isWordCh c) (hasP1_tail h)
      have hh : matchP1 p (c :: (a2 ++ w)) = none := hasP1_head h
      cases hm : matchP1 p (c :: a2) with
      | none => simp [hasP1_cons, hm, ht]
      | some pr =>
          obtain ⟨ds, rest⟩ := pr
          have hext := matchP1_extend_ws hm hw
          rw [List.cons_append] at hext
          rw [hext] at hh
          cases hh

theorem hasP2_ws_suffix {w : List Char} (hw : ∀ x ∈ w, isWS x = true) :
    ∀ (a : List Char) (p : Bool), hasP2 p (a ++ w) = false → hasP2 p a = false := by
  intro a
  induction a with
  | nil => intro p _; rfl
  | cons c a2 ih =>
      intro p h
      have ht : hasP2 (isWordCh c) a2 = false := ih (isWordCh c) (hasP2_tail h)
      have hh : matchP2 p (c :: (a2 ++ w)) = none := hasP2_head h
      cases hm : matchP2 p (c :: a2) with
      | none => simp [hasP2_cons, hm, ht]
      | some pr =>
          obtain ⟨ds, rest⟩ := pr
          have hext := matchP2_extend_ws hm hw
          rw [List.cons_append] at hext
          rw [hext] at hh
          cases hh

/-- The output of `stripRight` is the input minus a trailing whitespace run. -/
theorem stripRight_decomp : ∀ l : List Char,
    ∃ w, l = stripRight l ++ w ∧ ∀ x ∈ w, isWS x = true := by
  intro l
  induction l with
  | nil => exact ⟨[], rfl, by intro x hx; cases hx⟩
  | cons c cs ih =>
      obtain ⟨w, hdec, hw⟩ := ih
      cases hr : stripRight cs with
      | nil =>
          rw [hr] at hdec
          simp only [List.nil_append] at hdec
          by_cases hc : isWS c = true
          · refine ⟨c :: w, ?_, ?_⟩
            · have hsr : stripRight (c :: cs) = [] := by
                show (match stripRight cs with
                      | [] => if isWS c then [] else [c]
                      | r => c :: r) = []
                rw [hr]
                show (if isWS c = true then [] else [c]) = []
                rw [if_pos hc]
              rw [hsr, List.nil_append]
              exact congrArg (List.cons c) hdec
            · intro x hx
              rcases List.mem_cons.mp hx with rfl | hx2
              · exact hc
              · exact hw x hx2
          · refine ⟨w, ?_, hw⟩
            have hsr : stripRight (c :: cs) = [c] := by
              show (match stripRight cs with
                    | [] => if isWS c then [] else [c]
                    | r => c :: r) = [c]
              rw [hr]
              show (if isWS c = true then [] else [c]) = [c]
              rw [if_neg (by simp [hc])]
            rw [hsr]
            exact congrArg (List.cons c) hdec
      | cons r0 r2 =>
          refine ⟨w, ?_, hw⟩
          have hsr : stripRight (c :: cs) = c :: stripRight cs := by
            show (match stripRight cs with
                  | [] => if isWS c then [] else [c]
                  | r => c :: r) = c :: stripRight cs
            rw [hr]
          rw [hsr, List.cons_append]
          exact congrArg (List.cons c) hdec

/-- The output of `subP1` never matches pattern 1 again. -/
theorem hasP1_subP1 : ∀ (n : Nat) (s : List Char), s.length ≤ n → ∀ p,
    hasP1 p (subP1 p s) = false := by
  intro n
  induction n with
  | zero =>
      intro s hl p
      have hs : s = [] := List.eq_nil_of_length_eq_zero (Nat.le_zero.mp hl)
      subst hs
      rfl
  | succ m ih =>
      intro s hl p
      cases hm : matchP1 p s with
      | some pr =>
          obtain ⟨ds, rest⟩ := pr
          rw [subP1_matchstep hm]
          obtain ⟨hp, hs, hlen, hds, hb⟩ := matchP1_some_decomp hm
          have hrl : rest.length ≤ m := by
            have := matchP1_some_length hm
            omega
          have hrest : hasP1 true (subP1 true rest) = false := ih rest hrl true
          have h0 : matchP1 p ('0' :: '5' :: (ds ++ subP1 true rest)) = none :=
            matchP1_not8 p _ (by decide)
          rw [hasP1_cons, h0, show isWordCh '0' = true from by decide,
            hasP1_cons, matchP1_prevw, show isWordCh '5' = true from by decide,
            hasP1_word_chain _ (fun x hx => digit_word (hds x hx)), hrest]
          rfl
      | none =>
          cases s with
          | nil => rfl
          | cons c cs =>
              rw [subP1_copy hm]
              have htail : hasP1 (isWordCh c) (subP1 (isWordCh c) cs) = false :=
                ih cs (by simp only [List.length_cons] at hl; omega) (isWordCh c)
              have hhead : matchP1 p (c :: subP1 (isWordCh c) cs) = none :=
                matchP1_none_subP1 hm
              simp [hasP1_cons, hhead, htail]

/-- The output of `subP2` never matches pattern 2 again. -/
theorem hasP2_subP2 : ∀ (n : Nat) (s : List Char), s.length ≤ n → ∀ p,
    hasP2 p (subP2 p s) = false := by
  intro n
  induction n with
  | zero =>
      intro s hl p
      have hs : s = [] := List.eq_nil_of_length_eq_zero (Nat.le_zero.mp hl)
      subst hs
      rfl
  | succ m ih =>
      intro s hl p
      cases hm : matchP2 p s with
      | some pr =>
          obtain ⟨ds, rest⟩ := pr
          rw [subP2_matchstep hm]
          obtain ⟨hp, ⟨w, hs, hws⟩, hlen, hds, hb⟩ := matchP2_some_decomp hm
          have hrl : rest.length ≤ m := by
            have := matchP2_some_length hm
            omega
          have hrest : hasP2 true (subP2 true rest) = false := ih rest hrl true
          have h0 : matchP2 p ('0' :: '5' :: (ds ++ subP2 true rest)) = none :=
            matchP2_not8 p _ (by decide)
          rw [hasP2_cons, h0, show isWordCh '0' = true from by decide,
            hasP2_cons, matchP2_prevw, show isWordCh '5' = true from by decide,
            hasP2_word_chain _ (fun x hx => digit_word (hds x hx)), hrest]
          rfl
      | none =>
          cases s with
          | nil => rfl
          | cons c cs =>
              rw [subP2_copy hm]
              have htail : hasP2 (isWordCh c) (subP2 (isWordCh c) cs) = false :=
                ih cs (by simp only [List.length_cons] at hl; omega) (isWordCh c)
              have hhead : matchP2 p (c :: subP2 (isWordCh c) cs) = none :=
                matchP2_none_subP2 hm
              simp [hasP2_cons, hhead, htail]

/-- `subP2` preserves freedom from pattern-1 matches. -/
theorem hasP1_subP2 : ∀ (n : Nat) (s : List Char), s.length ≤ n → ∀ p,
    hasP1 p s = false → hasP1 p (subP2 p s) = false := by
  intro n
  induction n with
  | zero =>
      intro s hl p _
      have hs : s = [] := List.eq_nil_of_length_eq_zero (Nat.le_zero.mp hl)
      subst hs
      rfl
  | succ m ih =>
      intro s hl p h
      cases hm : matchP2 p s with
      | some pr =>
          obtain ⟨ds, rest⟩ := pr
          rw [subP2_matchstep hm]
          obtain ⟨hp, ⟨w, hs, hws⟩, hlen, hds, hb⟩ := matchP2_some_decomp hm
          subst hp
          rw [hs] at h
          have h1 : hasP1 (isWordCh '8') (w ++ '5' :: (ds ++ rest)) = false :=
            hasP1_tail h
          obtain ⟨q, h2⟩ := hasP1_exists_walk w h1
          have h3 : hasP1 (isWordCh '5') (ds ++ rest) = false := hasP1_tail h2
          rw [show isWordCh '5' = true from by decide,
            hasP1_word_chain _ (fun x hx => digit_word (hds x hx))] at h3
          have hrl : rest.length ≤ m := by
            have := matchP2_some_length hm
            omega
          have hrest : hasP1 true (subP2 true rest) = false := ih rest hrl true h3
          have h0 : matchP1 false ('0' :: '5' :: (ds ++ subP2 true rest)) = none :=
            matchP1_not8 false _ (by decide)
          rw [hasP1_cons, h0, show isWordCh '0' = true from by decide,
            hasP1_cons, matchP1_prevw, show isWordCh '5' = true from by decide,
            hasP1_word_chain _ (fun x hx => digit_word (hds x hx)), hrest]
          rfl
      | none =>
          cases s with
          | nil => rfl
          | cons c cs =>
              rw [subP2_copy hm]
              have hhead : matchP1 p (c :: subP2 (isWordCh c) cs) = none :=
                matchP1_none_subP2 (hasP1_head h)
              have htail : hasP1 (isWordCh c) (subP2 (isWordCh c) cs) = false :=
                ih cs (by simp only [List.length_cons] at hl; omega) (isWordCh c)
                  (hasP1_tail h)
              simp [hasP1_cons, hhead, htail]

/-- `collapse` preserves freedom from pattern-1 matches. -/
theorem hasP1_collapse : ∀ (n : Nat) (s : List Char), s.length ≤ n → ∀ p,
    hasP1 p s = false → hasP1 p (collapse s) = false := by
  intro n
  induction n with
  | zero =>
      intro s hl p _
      have hs : s = [] := List.eq_nil_of_length_eq_zero (Nat.le_zero.mp hl)
      subst hs
      rfl
  | succ m ih =>
      intro s hl p h
      cases s with
      | nil => rfl
      | cons c cs =>
          by_cases hws : isWS c = true
          · rw [collapse_ws hws]
            have hh : matchP1 p (' ' :: collapse (cs.dropWhile isWS)) = none :=
              matchP1_not8 p _ (by decide)
            have ht0 : hasP1 (isWordCh c) cs = false := hasP1_tail h
            rw [ws_not_word hws] at ht0
            have ht1 : hasP1 false (cs.dropWhile isWS) = false := by
              have hsplit : cs = cs.takeWhile isWS ++ cs.dropWhile isWS :=
                (List.takeWhile_append_dropWhile isWS cs).symm
              rw [hsplit, hasP1_ws_chain _ (fun x hx => List.mem_takeWhile_imp hx)] at ht0
              exact ht0
            have hlen : (cs.dropWhile isWS).length ≤ m := by
              have := dropWhile_len_le isWS cs
              simp only [List.length_cons] at hl
              omega
            have ht := ih _ hlen false ht1
            rw [hasP1_cons, hh, show isWordCh ' ' = false from by decide, ht]
            rfl
          · rw [collapse_copy (by simp [hws])]
            have hhead : matchP1 p (c :: collapse cs) = none :=
              matchP1_none_collapse (hasP1_head h)
            have htail := ih cs (by simp only [List.length_cons] at hl; omega)
              (isWordCh c) (hasP1_tail h)
            simp [hasP1_cons, hhead, htail]

/-- `collapse` preserves freedom from pattern-2 matches. -/
theorem hasP2_collapse : ∀ (n : Nat) (s : List Char), s.length ≤ n → ∀ p,
    hasP2 p s = false → hasP2 p (collapse s) = false := by
  intro n
  induction n with
  | zero =>
      intro s hl p _
      have hs : s = [] := List.eq_nil_of_length_eq_zero (Nat.le_zero.mp hl)
      subst hs
      rfl
  | succ m ih =>
      intro s hl p h
      cases s with
      | nil => rfl
      | cons c cs =>
          by_cases hws : isWS c = true
          · rw [collapse_ws hws]
            have hh : matchP2 p (' ' :: collapse (cs.dropWhile isWS)) = none :=
              matchP2_not8 p _ (by decide)
            have ht0 : hasP2 (isWordCh c) cs = false := hasP2_tail h
            rw [ws_not_word hws] at ht0
            have ht1 : hasP2 false (cs.dropWhile isWS) = false := by
              have hsplit : cs = cs.takeWhile isWS ++ cs.dropWhile isWS :=
                (List.takeWhile_append_dropWhile isWS cs).symm
              rw [hsplit, hasP2_ws_chain _ (fun x hx => List.mem_takeWhile_imp hx)] at ht0
              exact ht0
            have hlen : (cs.dropWhile isWS).length ≤ m := by
              have := dropWhile_len_le isWS cs
              simp only [List.length_cons] at hl
              omega
            have ht := ih _ hlen false ht1
            rw [hasP2_cons, hh, show isWordCh ' ' = false from by decide, ht]
            rfl
          · rw [collapse_copy (by simp [hws])]
            have hhead : matchP2 p (c :: collapse cs) = none :=
              matchP2_none_collapse (hasP2_head h)
            have htail := ih cs (by simp only [List.length_cons] at hl; omega)
              (isWordCh c) (hasP2_tail h)
            simp [hasP2_cons, hhead, htail]

/-- `pstrip` preserves freedom from pattern-1 matches. -/
theorem hasP1_pstrip {s : List Char} (h : hasP1 false s = false) :
    hasP1 false (pstrip s) = false := by
  have h1 : hasP1 false (s.dropWhile isWS) = false := by
    have hsplit : s = s.takeWhile isWS ++ s.dropWhile isWS :=
      (List.takeWhile_append_dropWhile isWS s).symm
    rw [hsplit, hasP1_ws_chain _ (fun x hx => List.mem_takeWhile_imp hx)] at h
    exact h
  obtain ⟨w, hdec, hw⟩ := stripRight_decomp (s.dropWhile isWS)
  rw [hdec] at h1
  show hasP1 false (stripRight (s.dropWhile isWS)) = false
  exact hasP1_ws_suffix hw _ false h1

/-- `pstrip` preserves freedom from pattern-2 matches. -/
theorem hasP2_pstrip {s : List Char} (h : hasP2 false s = false) :
    hasP2 false (pstrip s) = false := by
  have h1 : hasP2 false (s.dropWhile isWS) = false := by
    have hsplit : s = s.takeWhile isWS ++ s.dropWhile isWS :=
      (List.takeWhile_append_dropWhile isWS s).symm
    rw [hsplit, hasP2_ws_chain _ (fun x hx => List.mem_takeWhile_imp hx)] at h
    exact h
  obtain ⟨w, hdec, hw⟩ := stripRight_decomp (s.dropWhile isWS)
  rw [hdec] at h1
  show hasP2 false (stripRight (s.dropWhile isWS)) = false
  exact hasP2_ws_suffix hw _ false h1

/-- A string free of pattern-1 matches is a fixed point of `subP1`. -/
theorem subP1_id_of_no : ∀ (s : List Char) (p : Bool),
    hasP1 p s = false → subP1 p s = s := by
  intro s
  induction s with
  | nil => intro p _; rfl
  | cons c cs ih =>
      intro p h
      rw [subP1_copy (hasP1_head h), ih (isWordCh c) (hasP1_tail h)]

/-- A string free of pattern-2 matches is a fixed point of `subP2`. -/
theorem subP2_id_of_no : ∀ (s : List Char) (p : Bool),
    hasP2 p s = false → subP2 p s = s := by
  intro s
  induction s with
  | nil => intro p _; rfl
  | cons c cs ih =>
      intro p h
      rw [subP2_copy (hasP2_head h), ih (isWordCh c) (hasP2_tail h)]

theorem and_true_split {a b : Bool} (h : (a && b) = true) : a = true ∧ b = true := by
  simp only [Bool.and_eq_true] at h
  exact h

theorem wsOk_tail {c : Char} {t : List Char} (h : wsOk (c :: t) = true) :
    wsOk t = true := by
  cases t with
  | nil => rfl
  | cons c2 t2 =>
      simp only [wsOk] at h
      exact (and_true_split h).2

theorem wsOk_cons_nonws {c : Char} {t : List Char} (hc : isWS c = false)
    (ht : wsOk t = true) : wsOk (c :: t) = true := by
  cases t with
  | nil => simp [wsOk, hc]
  | cons d t2 => simp [wsOk, hc, ht]

theorem wsOk_space_cons {d : Char} {t2 : List Char} (hd : isWS d = false)
    (ht : wsOk (d :: t2) = true) : wsOk (' ' :: d :: t2) = true := by
  simp [wsOk, hd, ht]

/-- `collapse` output is in whitespace-normal form. -/
theorem collapse_wsOk : ∀ (n : Nat) (s : List Char), s.length ≤ n →
    wsOk (collapse s) = true := by
  intro n
  induction n with
  | zero =>
      intro s hl
      have hs : s = [] := List.eq_nil_of_length_eq_zero (Nat.le_zero.mp hl)
      subst hs
      rfl
  | succ m ih =>
      intro s hl
      cases s with
      | nil => rfl
      | cons c cs =>
          by_cases hws : isWS c = true
          · rw [collapse_ws hws]
            cases hu : cs.dropWhile isWS with
            | nil => rw [collapse_nil]; decide
            | cons d t =>
                have hd : isWS d = false := dropWhile_head hu
                have hlen : (d :: t).length ≤ m := by
                  have h1 := dropWhile_len_le isWS cs
                  rw [hu] at h1
                  simp only [List.length_cons] at hl h1 ⊢
                  omega
                have hwc : wsOk (collapse (d :: t)) = true := ih (d :: t) hlen
                rw [collapse_copy hd] at hwc
                rw [collapse_copy hd]
                exact wsOk_space_cons hd hwc
          · rw [collapse_copy (by simp [hws])]
            exact wsOk_cons_nonws (by simp [hws])
              (ih cs (by simp only [List.length_cons] at hl; omega))

/-- A list in whitespace-normal form is a fixed point of `collapse`. -/
theorem collapse_fix : ∀ l : List Char, wsOk l = true → collapse l = l := by
  intro l
  induction l with
  | nil => intro _; rfl
  | cons c cs ih =>
      intro h
      by_cases hws : isWS c = true
      · cases cs with
        | nil =>
            have hc : c = ' ' := by
              simp only [wsOk, hws] at h
              simpa using h
            subst hc
            rw [collapse_ws hws]
            rfl
        | cons d t =>
            simp only [wsOk] at h
            obtain ⟨h1, ht⟩ := and_true_split h
            simp only [hws, Bool.not_true, Bool.false_or, Bool.and_eq_true,
              decide_eq_true_eq, Bool.not_eq_true'] at h1
            obtain ⟨hc, hd⟩ := h1
            subst hc
            rw [collapse_ws hws, List.dropWhile_cons_of_neg (by simp [hd]), ih ht]
      · rw [collapse_copy (by simp [hws]), ih (wsOk_tail h)]

theorem wsOk_dropWhile : ∀ l : List Char, wsOk l = true →
    wsOk (l.dropWhile isWS) = true := by
  intro l
  induction l with
  | nil => intro _; rfl
  | cons c cs ih =>
      intro h
      by_cases hws : isWS c = true
      · rw [List.dropWhile_cons_of_pos hws]
        exact ih (wsOk_tail h)
      · rw [List.dropWhile_cons_of_neg (by simp [hws])]
        exact h

theorem wsOk_append_left : ∀ (a b : List Char), wsOk (a ++ b) = true →
    wsOk a = true := by
  intro a
  induction a with
  | nil => intro b _; rfl
  | cons c a2 ih =>
      intro b h
      cases a2 with
      | nil =>
          cases hc : isWS c with
          | false => simp [wsOk, hc]
          | true =>
              cases b with
              | nil => simpa using h
              | cons b0 b2 =>
                  have h2 : wsOk (c :: b0 :: b2) = true := h
                  simp only [wsOk] at h2
                  obtain ⟨h1, _⟩ := and_true_split h2
                  simp only [hc, Bool.not_true, Bool.false_or, Bool.and_eq_true,
                    decide_eq_true_eq] at h1
                  simp [wsOk, hc, h1.1]
      | cons a1 a3 =>
          simp only [List.cons_append, wsOk] at h ⊢
          obtain ⟨h1, h2⟩ := and_true_split h
          rw [Bool.and_eq_true]
          exact ⟨h1, ih b h2⟩

theorem wsOk_stripRight {l : List Char} (h : wsOk l = true) :
    wsOk (stripRight l) = true := by
  obtain ⟨w, hdec, _⟩ := stripRight_decomp l
  rw [hdec] at h
  exact wsOk_append_left _ _ h

/-- `stripRight` preserves the head of a nonempty result. -/
theorem stripRight_head : ∀ {l : List Char} {a : Char} {r : List Char},
    stripRight l = a :: r → ∃ t, l = a :: t := by
  intro l a r h
  cases l with
  | nil => cases h
  | cons c cs =>
      cases hr : stripRight cs with
      | nil =>
          have hsr : stripRight (c :: cs) = if isWS c = true then [] else [c] := by
            show (match stripRight cs with
                  | [] => if isWS c then [] else [c]
                  | r => c :: r) = _
            rw [hr]
          rw [hsr] at h
          by_cases hc : isWS c = true
          · rw [if_pos hc] at h; cases h
          · rw [if_neg (by simp [hc])] at h
            injection h with ha _
            exact ⟨cs, by rw [ha]⟩
      | cons r0 r2 =>
          have hsr : stripRight (c :: cs) = c :: stripRight cs := by
            show (match stripRight cs with
                  | [] => if isWS c then [] else [c]
                  | r => c :: r) = _
            rw [hr]
          rw [hsr] at h
          injection h with ha _
          exact ⟨cs, by rw [ha]⟩

theorem stripRight_idem : ∀ l : List Char, stripRight (stripRight l) = stripRight l := by
  intro l
  induction l with
  | nil => rfl
  | cons c cs ih =>
      cases hr : stripRight cs with
      | nil =>
          have hsr : stripRight (c :: cs) = if isWS c = true then [] else [c] := by
            show (match stripRight cs with
                  | [] => if isWS c then [] else [c]
                  | r => c :: r) = _
            rw [hr]
          rw [hsr]
          by_cases hc : isWS c = true
          · rw [if_pos hc]; rfl
          · rw [if_neg (by simp [hc])]
            show (match stripRight ([] : List Char) with
                  | [] => if isWS c then [] else [c]
                  | r => c :: r) = [c]
            show (if isWS c = true then [] else [c]) = [c]
            rw [if_neg (by simp [hc])]
      | cons r0 r2 =>
          have hsr : stripRight (c :: cs) = c :: stripRight cs := by
            show (match stripRight cs with
                  | [] => if isWS c then [] else [c]
                  | r => c :: r) = _
            rw [hr]
          rw [hsr]
          show (match stripRight (stripRight cs) with
                | [] => if isWS c then [] else [c]
                | r => c :: r) = c :: stripRight cs
          rw [ih, hr]

/-- `_clean_ocr_artifacts` is a projection on character lists. -/
theorem cleanOcr_idem (s : List Char) :
    cleanOcrArtifacts (cleanOcrArtifacts s) = cleanOcrArtifacts s := by
  by_cases hs : s.isEmpty = true
  · have h1 : cleanOcrArtifacts s = s := by
      simp only [cleanOcrArtifacts]
      rw [if_pos hs]
    rw [h1, h1]
  · have hyv : cleanOcrArtifacts s =
        pstrip (collapse (subP2 false (subP1 false s))) := by
      simp only [cleanOcrArtifacts]
      rw [if_neg hs]
    have h1 : hasP1 false (subP1 false s) = false :=
      hasP1_subP1 s.length s (Nat.le_refl _) false
    have h2 : hasP2 false (subP2 false (subP1 false s)) = false :=
      hasP2_subP2 (subP1 false s).length _ (Nat.le_refl _) false
    have h3 : hasP1 false (subP2 false (subP1 false s)) = false :=
      hasP1_subP2 (subP1 false s).length _ (Nat.le_refl _) false h1
    have h4 : hasP1 false (collapse (subP2 false (subP1 false s))) = false :=
      hasP1_collapse _ _ (Nat.le_refl _) false h3
    have h5 : hasP2 false (collapse (subP2 false (subP1 false s))) = false :=
      hasP2_collapse _ _ (Nat.le_refl _) false h2
    have h6 := hasP1_pstrip h4
    have h7 := hasP2_pstrip h5
    have hok : wsOk (collapse (subP2 false (subP1 false s))) = true :=
      collapse_wsOk _ _ (Nat.le_refl _)
    have hok2 : wsOk (pstrip (collapse (subP2 false (subP1 false s)))) = true :=
      wsOk_stripRight (wsOk_dropWhile _ hok)
    rw [hyv]
    by_cases hye : (pstrip (collapse (subP2 false (subP1 false s)))).isEmpty = true
    · simp only [cleanOcrArtifacts]
      rw [if_pos hye]
    · obtain ⟨a, r, hy⟩ : ∃ a r,
          pstrip (collapse (subP2 false (subP1 false s))) = a :: r := by
        cases hsr : pstrip (collapse (subP2 false (subP1 false s))) with
        | nil => rw [hsr] at hye; exact absurd rfl hye
        | cons a r => exact ⟨a, r, rfl⟩
      have hy2 : stripRight
          ((collapse (subP2 false (subP1 false s))).dropWhile isWS) = a :: r := hy
      obtain ⟨t, hut⟩ := stripRight_head hy2
      have ha : isWS a = false := dropWhile_head hut
      have hfix1 := subP1_id_of_no _ false h6
      have hfix2 := subP2_id_of_no _ false h7
      have hfix3 := collapse_fix _ hok2
      have hfix4 : pstrip (pstrip (collapse (subP2 false (subP1 false s)))) =
          pstrip (collapse (subP2 false (subP1 false s))) := by
        show stripRight
          ((pstrip (collapse (subP2 false (subP1 false s)))).dropWhile isWS) = _
        rw [hy, List.dropWhile_cons_of_neg (by simp [ha]), ← hy]
        exact stripRight_idem
          ((collapse (subP2 false (subP1 false s))).dropWhile isWS)
      simp only [cleanOcrArtifacts]
      rw [if_neg hye, hfix1, hfix2, hfix3, hfix4]

/-- C9: the artifact cleaner `_clean_ocr_artifacts` is idempotent — for every
text `x`, `clean(clean(x)) == clean(x)`. -/
theorem clean_idempotent (x : String) : cleanS (cleanS x) = cleanS x := by
  simp only [cleanS]
  exact congrArg String.mk (cleanOcr_idem x.toList)

end NIIE
